import Mathlib

set_option maxHeartbeats 1000000

/-!
Verification development for the yaml-rust-formatter core (`src/yaml.rs`).

Shallow embedding conventions:
* Rust `String` scalar text is modelled as `List Char` (`Str`).
* Rust `i64` is modelled as `Int`, with the `i64` range checked explicitly at
  every point where the source checks overflow (`parse`, `from_str_radix`).
* Rust `f64` values never become part of a node's identity in the source
  (floats are kept as text and re-parsed on demand), so the embedding models
  `parse_f64` by its success predicate `parse_f64_ok` and models the float
  accessors as returning the backing text on success.
* `Vec` push/pop stacks are modelled as lists with the top at the head.
* `BTreeMap` (the anchor map) is modelled as an association list observed
  only through `btreeGet` / `btreeInsert` (overwrite on existing key), which
  are the only operations the source uses.
* `LinkedHashMap` (hashes) is modelled as an insertion-ordered association
  list; duplicate-key insertion overwrites the value (spec section 3: last
  write wins).
-/

abbrev Str := List Char

/-- Scalar styles from the external scanner (`TScalarStyle`). The loader only
distinguishes `Plain` from everything else. -/
inductive TScalarStyle where
  | Any
  | Plain
  | SingleQuoted
  | DoubleQuoted
  | Literal
  | Folded
deriving DecidableEq

/-- Token types attached to scalar events; the loader only inspects the
`Tag (handle, suffix)` form. -/
inductive TokenType where
  | Tag (handle : Str) (suffix : Str)
  | OtherToken

/-- Structural events produced by the external parser (spec section 6).
`OtherEvent` stands for the event kinds the loader ignores. -/
inductive Event where
  | DocumentStart
  | DocumentEnd
  | SequenceStart (aid : Option Str)
  | SequenceEnd
  | MappingStart (aid : Option Str)
  | MappingEnd
  | Scalar (v : Str) (style : TScalarStyle) (aid : Option Str) (tag : Option TokenType)
  | Alias (id : Str)
  | OtherEvent

/-- The `YamlInput` node model from `src/yaml.rs`. -/
inductive YamlInput where
  | Real (s : Str)
  | Integer (i : Int)
  | String (s : Str)
  | Boolean (b : Bool)
  | Array (v : List YamlInput)
  | Hash (h : List (YamlInput × YamlInput))
  | Anchored (name : Str) (child : YamlInput)
  | Aliased (name : Str) (child : Option YamlInput)
  | Null
  | BadValue

abbrev ArrayInput := List YamlInput
abbrev HashInput := List (YamlInput × YamlInput)

/-- The `YamlOutput` node model from `src/yaml.rs`. -/
inductive YamlOutput where
  | Real (s : Str)
  | Integer (i : Int)
  | String (s : Str)
  | Boolean (b : Bool)
  | Array (v : List YamlOutput)
  | Hash (h : List (YamlOutput × YamlOutput))
  | Anchored (name : Str) (child : YamlOutput)
  | Alias (name : Str)
  | Null
  | BadValue

abbrev ArrayOutput := List YamlOutput
abbrev HashOutput := List (YamlOutput × YamlOutput)

/-! Structural equality of `YamlInput` nodes (the derived Rust `Eq`). -/

mutual

def beqYI : YamlInput → YamlInput → Bool
  | .Real a, .Real b => decide (a = b)
  | .Integer a, .Integer b => decide (a = b)
  | .String a, .String b => decide (a = b)
  | .Boolean a, .Boolean b => decide (a = b)
  | .Array a, .Array b => beqYIList a b
  | .Hash a, .Hash b => beqYIPairs a b
  | .Anchored n a, .Anchored m b => decide (n = m) && beqYI a b
  | .Aliased n a, .Aliased m b => decide (n = m) && beqYIOpt a b
  | .Null, .Null => true
  | .BadValue, .BadValue => true
  | _, _ => false

def beqYIList : List YamlInput → List YamlInput → Bool
  | [], [] => true
  | a :: as, b :: bs => beqYI a b && beqYIList as bs
  | _, _ => false

def beqYIPairs : List (YamlInput × YamlInput) → List (YamlInput × YamlInput) → Bool
  | [], [] => true
  | (k, v) :: as, (k', v') :: bs => beqYI k k' && beqYI v v' && beqYIPairs as bs
  | _, _ => false

def beqYIOpt : Option YamlInput → Option YamlInput → Bool
  | none, none => true
  | some a, some b => beqYI a b
  | _, _ => false

end

/-! Structural equality of `YamlOutput` nodes (the derived Rust `Eq`). -/

mutual

def beqYO : YamlOutput → YamlOutput → Bool
  | .Real a, .Real b => decide (a = b)
  | .Integer a, .Integer b => decide (a = b)
  | .String a, .String b => decide (a = b)
  | .Boolean a, .Boolean b => decide (a = b)
  | .Array a, .Array b => beqYOList a b
  | .Hash a, .Hash b => beqYOPairs a b
  | .Anchored n a, .Anchored m b => decide (n = m) && beqYO a b
  | .Alias n, .Alias m => decide (n = m)
  | .Null, .Null => true
  | .BadValue, .BadValue => true
  | _, _ => false

def beqYOList : List YamlOutput → List YamlOutput → Bool
  | [], [] => true
  | a :: as, b :: bs => beqYO a b && beqYOList as bs
  | _, _ => false

def beqYOPairs : List (YamlOutput × YamlOutput) → List (YamlOutput × YamlOutput) → Bool
  | [], [] => true
  | (k, v) :: as, (k', v') :: bs => beqYO k k' && beqYO v v' && beqYOPairs as bs
  | _, _ => false

end

/-! ## Numeric scalar parsing (Rust standard library semantics) -/

def i64Min : Int := -(2 ^ 63)
def i64Max : Int := 2 ^ 63 - 1

/-- Value of one digit character for `char::to_digit`: `0`-`9`, then
case-insensitive letters starting at 10. -/
def radixDigitVal (c : Char) : Option Nat :=
  if 48 ≤ c.toNat ∧ c.toNat ≤ 57 then some (c.toNat - 48)
  else if 97 ≤ c.toNat ∧ c.toNat ≤ 122 then some (c.toNat - 97 + 10)
  else if 65 ≤ c.toNat ∧ c.toNat ≤ 90 then some (c.toNat - 65 + 10)
  else none

/-- Accumulated value of a digit string in the given radix; fails on any
character that is not a digit below the radix. -/
def radixDigitsVal (radix : Nat) (l : Str) : Option Nat :=
  l.foldl
    (fun acc c =>
      match acc, radixDigitVal c with
      | some a, some d => if d < radix then some (radix * a + d) else none
      | _, _ => none)
    (some 0)

/-- Embeds Rust `i64::from_str_radix(src, radix)`: optional sign, then one or
more digits valid for the radix; out-of-range values are an error. -/
def from_str_radix (radix : Nat) (src : Str) : Option Int :=
  let (neg, digits) :=
    match src with
    | '+' :: r => (false, r)
    | '-' :: r => (true, r)
    | r => (false, r)
  if digits.isEmpty then none
  else
    match radixDigitsVal radix digits with
    | none => none
    | some n =>
      let val : Int := if neg then -(n : Int) else (n : Int)
      if i64Min ≤ val ∧ val ≤ i64Max then some val else none

/-- Embeds Rust `str::parse::<i64>()`, which is `from_str_radix` at base 10. -/
def parse_i64 (src : Str) : Option Int := from_str_radix 10 src

/-- Embeds Rust `str::parse::<bool>()`: exactly `true` or `false`. -/
def parse_bool (v : Str) : Option Bool :=
  if v = "true".data then some true
  else if v = "false".data then some false
  else none

def isDig (c : Char) : Bool := decide (48 ≤ c.toNat ∧ c.toNat ≤ 57)

/-- Optional exponent part of the Rust float grammar: empty, or `e`/`E`,
optional sign, one or more digits, consuming the whole rest. -/
def expTail : Str → Bool
  | [] => true
  | c :: rest =>
    (decide (c = 'e') || decide (c = 'E')) &&
      (let r : Str :=
        match rest with
        | '+' :: r => r
        | '-' :: r => r
        | r => r
      !r.isEmpty && r.all isDig)

/-- Unsigned number part of the Rust float grammar:
`Digit+ | Digit+ . Digit* | Digit* . Digit+`, then an optional exponent. -/
def numberGrammar (s : Str) : Bool :=
  let d1 := s.takeWhile isDig
  let r1 := s.dropWhile isDig
  match r1 with
  | '.' :: r2 =>
    let d2 := r2.takeWhile isDig
    let r3 := r2.dropWhile isDig
    (!d1.isEmpty || !d2.isEmpty) && expTail r3
  | _ => !d1.isEmpty && expTail r1

def lowerStr (s : Str) : Str := s.map Char.toLower

/-- Whether Rust `str::parse::<f64>()` succeeds: optional sign, then a
case-insensitive `inf` / `infinity` / `nan` word or a decimal number. -/
def rustParseF64Ok (v : Str) : Bool :=
  let body : Str :=
    match v with
    | '+' :: r => r
    | '-' :: r => r
    | r => r
  decide (lowerStr body = "inf".data ∨ lowerStr body = "infinity".data
      ∨ lowerStr body = "nan".data)
    || numberGrammar body

/-- Embeds `parse_f64` from the source: the YAML special spellings of
infinity and NaN, else the Rust float grammar. Only success is modelled,
since the source never stores a float value in a node. -/
def parse_f64_ok (v : Str) : Bool :=
  if v = ".inf".data ∨ v = ".Inf".data ∨ v = ".INF".data
      ∨ v = "+.inf".data ∨ v = "+.Inf".data ∨ v = "+.INF".data then true
  else if v = "-.inf".data ∨ v = "-.Inf".data ∨ v = "-.INF".data then true
  else if v = ".nan".data ∨ v = "NaN".data ∨ v = ".NAN".data then true
  else rustParseF64Ok v

/-! ## Typed accessors and predicates (`impl YamlInput`) -/

namespace YamlInput

def as_bool : YamlInput → Option Bool
  | .Boolean v => some v
  | .Aliased _ (some v) => v.as_bool
  | .Aliased _ none => none
  | .Anchored _ v => v.as_bool
  | _ => none

def as_i64 : YamlInput → Option Int
  | .Integer v => some v
  | .Aliased _ (some v) => v.as_i64
  | .Aliased _ none => none
  | .Anchored _ v => v.as_i64
  | _ => none

def as_str : YamlInput → Option Str
  | .String v => some v
  | .Aliased _ (some v) => v.as_str
  | .Aliased _ none => none
  | .Anchored _ v => v.as_str
  | _ => none

def as_hash : YamlInput → Option HashInput
  | .Hash v => some v
  | .Aliased _ (some v) => v.as_hash
  | .Aliased _ none => none
  | .Anchored _ v => v.as_hash
  | _ => none

def as_vec : YamlInput → Option ArrayInput
  | .Array v => some v
  | .Aliased _ (some v) => v.as_vec
  | .Aliased _ none => none
  | .Anchored _ v => v.as_vec
  | _ => none

def into_bool : YamlInput → Option Bool
  | .Boolean v => some v
  | .Aliased _ (some v) => v.into_bool
  | .Aliased _ none => none
  | .Anchored _ v => v.into_bool
  | _ => none

def into_i64 : YamlInput → Option Int
  | .Integer v => some v
  | .Aliased _ (some v) => v.into_i64
  | .Aliased _ none => none
  | .Anchored _ v => v.into_i64
  | _ => none

def into_string : YamlInput → Option Str
  | .String v => some v
  | .Aliased _ (some v) => v.into_string
  | .Aliased _ none => none
  | .Anchored _ v => v.into_string
  | _ => none

def into_hash : YamlInput → Option HashInput
  | .Hash v => some v
  | .Aliased _ (some v) => v.into_hash
  | .Aliased _ none => none
  | .Anchored _ v => v.into_hash
  | _ => none

def into_vec : YamlInput → Option ArrayInput
  | .Array v => some v
  | .Aliased _ (some v) => v.into_vec
  | .Aliased _ none => none
  | .Anchored _ v => v.into_vec
  | _ => none

def is_null : YamlInput → Bool
  | .Null => true
  | _ => false

def is_badvalue : YamlInput → Bool
  | .BadValue => true
  | _ => false

def is_array : YamlInput → Bool
  | .Array _ => true
  | _ => false

/-- `as_f64`: only a direct `Real` answers; the float value is modelled by
its backing text (it is `parse_f64` of that text in the source). -/
def as_f64 : YamlInput → Option Str
  | .Real v => if parse_f64_ok v then some v else none
  | _ => none

/-- `into_f64`: identical body to `as_f64` in the source. -/
def into_f64 : YamlInput → Option Str
  | .Real v => if parse_f64_ok v then some v else none
  | _ => none

def strip0x : Str → Option Str
  | '0' :: 'x' :: r => some r
  | _ => none

def strip0o : Str → Option Str
  | '0' :: 'o' :: r => some r
  | _ => none

def stripPlus : Str → Option Str
  | '+' :: r => some r
  | _ => none

/-- Embeds `YamlInput::from_str`: untagged plain-scalar type resolution. -/
def from_str (v : Str) : YamlInput :=
  match (strip0x v).bind (from_str_radix 16) with
  | some i => .Integer i
  | none =>
    match (strip0o v).bind (from_str_radix 8) with
    | some i => .Integer i
    | none =>
      match (stripPlus v).bind parse_i64 with
      | some i => .Integer i
      | none =>
        if v = "~".data ∨ v = "null".data then .Null
        else if v = "true".data then .Boolean true
        else if v = "false".data then .Boolean false
        else
          match parse_i64 v with
          | some i => .Integer i
          | none => if parse_f64_ok v then .Real v else .String v

end YamlInput

/-- Scalar resolution as inlined in the `Scalar` arm of
`YamlLoader::on_event`: quoted or block styles are always strings; an
explicit `!!` core tag coerces (mismatch gives `BadValue`); otherwise the
untagged rules of `from_str` apply. -/
def resolve_scalar (v : Str) (style : TScalarStyle) (tag : Option TokenType) :
    YamlInput :=
  if style ≠ TScalarStyle.Plain then .String v
  else
    match tag with
    | some (TokenType.Tag handle suffix) =>
      if handle = "!!".data then
        if suffix = "bool".data then
          match parse_bool v with
          | none => .BadValue
          | some b => .Boolean b
        else if suffix = "int".data then
          match parse_i64 v with
          | none => .BadValue
          | some i => .Integer i
        else if suffix = "float".data then
          if parse_f64_ok v then .Real v else .BadValue
        else if suffix = "null".data then
          if v = "~".data ∨ v = "null".data then .Null else .BadValue
        else .String v
      else .String v
    | _ => YamlInput.from_str v

/-! ## Anchor map (`BTreeMap`) and hash (`LinkedHashMap`) operations -/

/-- `BTreeMap::get`, observed as association-list lookup. -/
def btreeGet (m : List (Str × YamlInput)) (k : Str) : Option YamlInput :=
  match m with
  | [] => none
  | (k', v) :: rest => if k' = k then some v else btreeGet rest k

/-- `BTreeMap::insert`: overwrites the value of an existing key, otherwise
adds the entry. -/
def btreeInsert (m : List (Str × YamlInput)) (k : Str) (v : YamlInput) :
    List (Str × YamlInput) :=
  match m with
  | [] => [(k, v)]
  | (k', v') :: rest =>
    if k' = k then (k', v) :: rest else (k', v') :: btreeInsert rest k v

/-- Modelled from the spec: `LinkedHashMap::insert` of the external
`linked_hash_map` crate (not part of `src/`) — an insertion-ordered map
where a duplicate key overwrites the stored value (spec section 3,
"duplicate mapping keys overwrite (last write wins)"). -/
def hashInsert (h : HashInput) (k v : YamlInput) : HashInput :=
  match h with
  | [] => [(k, v)]
  | (k', v') :: rest =>
    if beqYI k' k then (k', v) :: rest else (k', v') :: hashInsert rest k v

/-- Modelled from the spec: `LinkedHashMap::get` — lookup by structural key
equality. -/
def hashGet (h : HashInput) (k : YamlInput) : Option YamlInput :=
  match h with
  | [] => none
  | (k', v) :: rest => if beqYI k' k then some v else hashGet rest k

/-- Modelled from the spec: `LinkedHashMap::insert` on the output flavor. -/
def hashInsertOut (h : HashOutput) (k v : YamlOutput) : HashOutput :=
  match h with
  | [] => [(k, v)]
  | (k', v') :: rest =>
    if beqYO k' k then (k', v) :: rest else (k', v') :: hashInsertOut rest k v

/-- `collect::<LinkedHashMap>()`: sequential insertion of a pair list into an
empty map. -/
def collectPairs (l : List (YamlOutput × YamlOutput)) : HashOutput :=
  l.foldl (fun acc p => hashInsertOut acc p.1 p.2) []

/-! ## Input-to-output conversion (`Into<YamlOutput> for YamlInput`) -/

mutual

def toOutput : YamlInput → YamlOutput
  | .Real s => .Real s
  | .Integer i => .Integer i
  | .String s => .String s
  | .Boolean b => .Boolean b
  | .Array v => .Array (toOutputList v)
  | .Hash h => .Hash (collectPairs (toOutputPairs h))
  | .Anchored s i => .Anchored s (toOutput i)
  | .Aliased s _ => .Alias s
  | .Null => .Null
  | .BadValue => .BadValue

def toOutputList : List YamlInput → List YamlOutput
  | [] => []
  | a :: rest => toOutput a :: toOutputList rest

def toOutputPairs : List (YamlInput × YamlInput) → List (YamlOutput × YamlOutput)
  | [] => []
  | (k, v) :: rest => (toOutput k, toOutput v) :: toOutputPairs rest

end

/-! ## The document builder (`YamlLoader`) -/

/-- Loader state: completed documents, value stack of
(partial node, pending anchor) pairs, key stack, anchor table. Stacks keep
their top at the head of the list. -/
structure YamlLoader where
  docs : List YamlInput
  doc_stack : List (YamlInput × Option Str)
  key_stack : List YamlInput
  anchor_map : List (Str × YamlInput)

def initial_loader : YamlLoader := ⟨[], [], [], []⟩

/-- `YamlLoader::insert_new_node`. A `none` result models the `unreachable`
and `unwrap` panics reachable only when the event source breaks its
contract. -/
def insert_new_node (node : YamlInput × Option Str) (st : YamlLoader) :
    Option YamlLoader :=
  let st :=
    match node.2 with
    | some anchor => { st with anchor_map := btreeInsert st.anchor_map anchor node.1 }
    | none => st
  match st.doc_stack with
  | [] => some { st with doc_stack := [node] }
  | (YamlInput.Array v, pa) :: rest =>
    some { st with doc_stack := (YamlInput.Array (v ++ [node.1]), pa) :: rest }
  | (YamlInput.Hash h, pa) :: rest =>
    match st.key_stack with
    | [] => none
    | cur_key :: krest =>
      if cur_key.is_badvalue then
        some { st with key_stack := node.1 :: krest }
      else
        some { st with
          doc_stack := (YamlInput.Hash (hashInsert h cur_key node.1), pa) :: rest,
          key_stack := YamlInput.BadValue :: krest }
  | _ => none

/-- `YamlLoader::on_event` (the `MarkedEventReceiver` implementation). -/
def on_event (ev : Event) (st : YamlLoader) : Option YamlLoader :=
  match ev with
  | .DocumentStart => some st
  | .DocumentEnd =>
    match st.doc_stack with
    | [] => some { st with docs := st.docs ++ [YamlInput.BadValue] }
    | [top] => some { st with docs := st.docs ++ [top.1], doc_stack := [] }
    | _ => none
  | .SequenceStart aid =>
    some { st with doc_stack := (YamlInput.Array [], aid) :: st.doc_stack }
  | .SequenceEnd =>
    match st.doc_stack with
    | [] => none
    | (n, a) :: rest =>
      let st := { st with doc_stack := rest }
      match a with
      | some anchor => insert_new_node (YamlInput.Anchored anchor n, some anchor) st
      | none => insert_new_node (n, none) st
  | .MappingStart aid =>
    some { st with
      doc_stack := (YamlInput.Hash [], aid) :: st.doc_stack,
      key_stack := YamlInput.BadValue :: st.key_stack }
  | .MappingEnd =>
    match st.key_stack with
    | [] => none
    | _ :: krest =>
      match st.doc_stack with
      | [] => none
      | (n, a) :: rest =>
        let st := { st with doc_stack := rest, key_stack := krest }
        match a with
        | some anchor => insert_new_node (YamlInput.Anchored anchor n, some anchor) st
        | none => insert_new_node (n, none) st
  | .Scalar v style aid tag =>
    let node := resolve_scalar v style tag
    match aid with
    | some anchor => insert_new_node (YamlInput.Anchored anchor node, some anchor) st
    | none => insert_new_node (node, none) st
  | .Alias id =>
    insert_new_node (YamlInput.Aliased id (btreeGet st.anchor_map id), none) st
  | .OtherEvent => some st

/-- Runs the loader over an event sequence (the `parser.load` driver loop,
with the event source abstracted per its spec section 6 contract). -/
def processEvents (evs : List Event) (st : YamlLoader) : Option YamlLoader :=
  match evs with
  | [] => some st
  | e :: rest =>
    match on_event e st with
    | some st' => processEvents rest st'
    | none => none

/-- `YamlLoader::load_from_str`, from the event stream on: fresh state, run
all events, return the document list. -/
def load_events (evs : List Event) : Option (List YamlInput) :=
  (processEvents evs initial_loader).map (fun st => st.docs)

/-! ## Indexing (`Index<&str>` and `Index<usize>` for `YamlInput`) -/

/-- Rust `usize as i64` (64-bit wrapping cast). -/
def usizeAsI64 (i : Nat) : Int :=
  if i % 2 ^ 64 < 2 ^ 63 then ((i % 2 ^ 64 : Nat) : Int)
  else ((i % 2 ^ 64 : Nat) : Int) - 2 ^ 64

/-- String indexing: `self[idx]` for `idx : &str`. -/
def YamlInput.indexStr (self : YamlInput) (idx : Str) : YamlInput :=
  match self.as_hash with
  | some h => (hashGet h (.String idx)).getD .BadValue
  | none => .BadValue

/-- Integer indexing: `self[idx]` for `idx : usize`. -/
def YamlInput.indexNat (self : YamlInput) (idx : Nat) : YamlInput :=
  match self.as_vec with
  | some v => (v.get? idx).getD .BadValue
  | none =>
    match self.as_hash with
    | some h => (hashGet h (.Integer (usizeAsI64 idx))).getD .BadValue
    | none => .BadValue

/-! ## Bad-key predicate (for the builder invariant of claim C10) -/

mutual

/-- No hash anywhere inside the node has a bare `BadValue` key. -/
def noBadKey : YamlInput → Bool
  | .Array l => noBadKeyList l
  | .Hash h => noBadKeyPairs h
  | .Anchored _ c => noBadKey c
  | .Aliased _ (some c) => noBadKey c
  | _ => true

def noBadKeyList : List YamlInput → Bool
  | [] => true
  | a :: rest => noBadKey a && noBadKeyList rest

def noBadKeyPairs : List (YamlInput × YamlInput) → Bool
  | [] => true
  | (k, v) :: rest => !k.is_badvalue && noBadKey k && noBadKey v && noBadKeyPairs rest

end

/-- The builder invariant: every node reachable from the loader state is free
of bare `BadValue` hash keys. -/
def loaderNoBadKey (st : YamlLoader) : Bool :=
  st.docs.all noBadKey
    && st.doc_stack.all (fun p => noBadKey p.1)
    && st.key_stack.all noBadKey
    && st.anchor_map.all (fun p => noBadKey p.2)

/-! ## Key distinctness (for claims C4 and C9) -/

/-- Every key stored in `h` differs from the candidate new key `k`
(in the orientation `hashInsert` tests). -/
def keyFreshIn (h : HashInput) (k : YamlInput) : Bool :=
  h.all (fun p => !beqYI p.1 k)

def keysDistinctIn : HashInput → Bool
  | [] => true
  | (k, _) :: rest => rest.all (fun p => !beqYI k p.1) && keysDistinctIn rest

def keyFreshOut (h : HashOutput) (k : YamlOutput) : Bool :=
  h.all (fun p => !beqYO p.1 k)

def keysDistinctOut : HashOutput → Bool
  | [] => true
  | (k, _) :: rest => rest.all (fun p => !beqYO k p.1) && keysDistinctOut rest

/-! ## Event-level serializer model (for claim C4) -/

/-- Decimal digit character. -/
def digitChar : Nat → Char
  | 0 => '0'
  | 1 => '1'
  | 2 => '2'
  | 3 => '3'
  | 4 => '4'
  | 5 => '5'
  | 6 => '6'
  | 7 => '7'
  | 8 => '8'
  | _ => '9'

/-- Decimal rendering of a natural number, most significant digit first. -/
def natRender (n : Nat) : Str :=
  if n < 10 then [digitChar n]
  else natRender (n / 10) ++ [digitChar (n % 10)]
decreasing_by exact Nat.div_lt_self (by omega) (by omega)

/-- Decimal rendering of an integer (Rust `i64` `Display`). -/
def intRender (i : Int) : Str :=
  if i < 0 then '-' :: natRender (-i).toNat else natRender i.toNat

/-- Puts the anchor name on the opening event of a node's event run. -/
def attachAnchor (n : Str) (evs : List Event) : List Event :=
  match evs with
  | Event.Scalar v s _ t :: rest => Event.Scalar v s (some n) t :: rest
  | Event.SequenceStart _ :: rest => Event.SequenceStart (some n) :: rest
  | Event.MappingStart _ :: rest => Event.MappingStart (some n) :: rest
  | evs => evs

/-! Modelled from the spec: the serializer (`YamlEmitter`, whose code is not
under `src/`) composed with the external parser, observed at the event level
(spec sections 4.5 and 6). Scalars are rendered as their backing text;
a string is quoted exactly when the scalar-resolution rules would re-classify
its text as a non-string (spec 4.5: "must quote any string whose literal text
would otherwise be re-classified as a non-string ... in lockstep with 4.1
rule 3"); containers produce matching start/end event pairs; an anchored node
carries its anchor name on its opening event; an alias produces an alias
event. `BadValue`, which the spec gives no rendering for, is rendered as
null. -/

mutual

def emitEvents : YamlOutput → List Event
  | .Real s => [.Scalar s .Plain none none]
  | .Integer i => [.Scalar (intRender i) .Plain none none]
  | .String s =>
    match YamlInput.from_str s with
    | .String _ => [.Scalar s .Plain none none]
    | _ => [.Scalar s .SingleQuoted none none]
  | .Boolean b =>
    [.Scalar (if b then "true".data else "false".data) .Plain none none]
  | .Null => [.Scalar "~".data .Plain none none]
  | .BadValue => [.Scalar "~".data .Plain none none]
  | .Array v => Event.SequenceStart none :: emitList v ++ [Event.SequenceEnd]
  | .Hash h => Event.MappingStart none :: emitPairs h ++ [Event.MappingEnd]
  | .Anchored n c => attachAnchor n (emitEvents c)
  | .Alias n => [.Alias n]

def emitList : List YamlOutput → List Event
  | [] => []
  | a :: rest => emitEvents a ++ emitList rest

def emitPairs : List (YamlOutput × YamlOutput) → List Event
  | [] => []
  | (k, v) :: rest => emitEvents k ++ emitEvents v ++ emitPairs rest

end

/-- The whole-document event run of a single root (one
DocumentStart/DocumentEnd pair, spec section 6). -/
def docEvents (t : YamlOutput) : List Event :=
  Event.DocumentStart :: emitEvents t ++ [Event.DocumentEnd]

/-- Whether an `Insert` into this state succeeds (value stack empty, or its
top an open container; a mapping top needs a key-stack slot). -/
def insertOk (st : YamlLoader) : Bool :=
  match st.doc_stack with
  | [] => true
  | (YamlInput.Array _, _) :: _ => true
  | (YamlInput.Hash _, _) :: _ => !st.key_stack.isEmpty
  | _ => false

/-! Side conditions under which the event-level round trip reproduces a tree
exactly: no anchor/alias/`BadValue` nodes, integers in the `i64` range
(automatic in the Rust types), `Real` leaves whose text re-resolves as a
float, and hashes with pairwise-distinct keys (automatic for Rust's
`LinkedHashMap`, for both the input keys and their converted images). -/

mutual

def rtSafe : YamlInput → Bool
  | .Real s =>
    match YamlInput.from_str s with
    | .Real s' => decide (s' = s)
    | _ => false
  | .Integer i => decide (i64Min ≤ i ∧ i ≤ i64Max)
  | .String _ => true
  | .Boolean _ => true
  | .Null => true
  | .BadValue => false
  | .Anchored _ _ => false
  | .Aliased _ _ => false
  | .Array v => rtSafeList v
  | .Hash h =>
    keysDistinctIn h && keysDistinctOut (toOutputPairs h) && rtSafePairs h

def rtSafeList : List YamlInput → Bool
  | [] => true
  | a :: rest => rtSafe a && rtSafeList rest

def rtSafePairs : List (YamlInput × YamlInput) → Bool
  | [] => true
  | (k, v) :: rest => rtSafe k && rtSafe v && rtSafePairs rest

end

/-! # Claims -/

/-- C1, counterexample: the predicates and the float accessors do not unwrap
wrappers. `is_null` on an `Anchored` null is `false` although it is `true`
on the wrapped child, and `as_f64` on an `Anchored` real is `none` although
it is a value on the wrapped child. -/
theorem C1_counterexample :
    YamlInput.is_null (.Anchored "a".data .Null) = false
      ∧ YamlInput.is_null .Null = true
      ∧ YamlInput.as_f64 (.Anchored "a".data (.Real "1".data)) = none
      ∧ YamlInput.as_f64 (.Real "1".data) = some "1".data :=
  ⟨rfl, rfl, rfl, rfl⟩

/-- C1, amended: the ten macro-generated accessors (`as_bool`, `as_i64`,
`as_str`, `as_hash`, `as_vec` and the `into_*` variants) answer on an
`Anchored` or resolved `Aliased` wrapper exactly as on the wrapped child and
give no value on an unresolved `Aliased`; the predicates (`is_null`,
`is_badvalue`, `is_array`) and the float accessors (`as_f64`, `into_f64`) do
not unwrap: they answer `false` (resp. no value) on every `Anchored` or
`Aliased` node, in particular on an unresolved `Aliased`. -/
theorem C1_accessor_unwrapping :
    (∀ n c, YamlInput.as_bool (.Anchored n c) = c.as_bool)
      ∧ (∀ n c, YamlInput.as_bool (.Aliased n (some c)) = c.as_bool)
      ∧ (∀ n, YamlInput.as_bool (.Aliased n none) = none)
      ∧ (∀ n c, YamlInput.as_i64 (.Anchored n c) = c.as_i64)
      ∧ (∀ n c, YamlInput.as_i64 (.Aliased n (some c)) = c.as_i64)
      ∧ (∀ n, YamlInput.as_i64 (.Aliased n none) = none)
      ∧ (∀ n c, YamlInput.as_str (.Anchored n c) = c.as_str)
      ∧ (∀ n c, YamlInput.as_str (.Aliased n (some c)) = c.as_str)
      ∧ (∀ n, YamlInput.as_str (.Aliased n none) = none)
      ∧ (∀ n c, YamlInput.as_hash (.Anchored n c) = c.as_hash)
      ∧ (∀ n c, YamlInput.as_hash (.Aliased n (some c)) = c.as_hash)
      ∧ (∀ n, YamlInput.as_hash (.Aliased n none) = none)
      ∧ (∀ n c, YamlInput.as_vec (.Anchored n c) = c.as_vec)
      ∧ (∀ n c, YamlInput.as_vec (.Aliased n (some c)) = c.as_vec)
      ∧ (∀ n, YamlInput.as_vec (.Aliased n none) = none)
      ∧ (∀ n c, YamlInput.into_bool (.Anchored n c) = c.into_bool)
      ∧ (∀ n c, YamlInput.into_bool (.Aliased n (some c)) = c.into_bool)
      ∧ (∀ n, YamlInput.into_bool (.Aliased n none) = none)
      ∧ (∀ n c, YamlInput.into_i64 (.Anchored n c) = c.into_i64)
      ∧ (∀ n c, YamlInput.into_i64 (.Aliased n (some c)) = c.into_i64)
      ∧ (∀ n, YamlInput.into_i64 (.Aliased n none) = none)
      ∧ (∀ n c, YamlInput.into_string (.Anchored n c) = c.into_string)
      ∧ (∀ n c, YamlInput.into_string (.Aliased n (some c)) = c.into_string)
      ∧ (∀ n, YamlInput.into_string (.Aliased n none) = none)
      ∧ (∀ n c, YamlInput.into_hash (.Anchored n c) = c.into_hash)
      ∧ (∀ n c, YamlInput.into_hash (.Aliased n (some c)) = c.into_hash)
      ∧ (∀ n, YamlInput.into_hash (.Aliased n none) = none)
      ∧ (∀ n c, YamlInput.into_vec (.Anchored n c) = c.into_vec)
      ∧ (∀ n c, YamlInput.into_vec (.Aliased n (some c)) = c.into_vec)
      ∧ (∀ n, YamlInput.into_vec (.Aliased n none) = none)
      ∧ (∀ n c, YamlInput.is_null (.Anchored n c) = false)
      ∧ (∀ n co, YamlInput.is_null (.Aliased n co) = false)
      ∧ (∀ n c, YamlInput.is_badvalue (.Anchored n c) = false)
      ∧ (∀ n co, YamlInput.is_badvalue (.Aliased n co) = false)
      ∧ (∀ n c, YamlInput.is_array (.Anchored n c) = false)
      ∧ (∀ n co, YamlInput.is_array (.Aliased n co) = false)
      ∧ (∀ n c, YamlInput.as_f64 (.Anchored n c) = none)
      ∧ (∀ n co, YamlInput.as_f64 (.Aliased n co) = none)
      ∧ (∀ n c, YamlInput.into_f64 (.Anchored n c) = none)
      ∧ (∀ n co, YamlInput.into_f64 (.Aliased n co) = none) := by
  repeat' apply And.intro
  all_goals intros
  all_goals rfl

/-- `hashInsertOut` on a fresh key appends the pair at the back. -/
theorem hashInsertOut_fresh (h : HashOutput) (k v : YamlOutput)
    (hf : keyFreshOut h k = true) : hashInsertOut h k v = h ++ [(k, v)] := by
  induction h with
  | nil => rfl
  | cons p rest ih =>
    obtain ⟨k', v'⟩ := p
    simp only [keyFreshOut, List.all_cons, Bool.and_eq_true, Bool.not_eq_true'] at hf
    simp only [hashInsertOut, hf.1, Bool.false_eq_true, if_false, List.cons_append,
      List.cons.injEq, true_and]
    exact ih (by simpa [keyFreshOut] using hf.2)

/-- Folding `hashInsertOut` over pairwise-distinct, fresh pairs appends them
in order. -/
theorem collect_fresh (l : List (YamlOutput × YamlOutput)) :
    ∀ acc : HashOutput, (l.all fun p => keyFreshOut acc p.1) = true →
      keysDistinctOut l = true →
      l.foldl (fun acc p => hashInsertOut acc p.1 p.2) acc = acc ++ l := by
  induction l with
  | nil => intro acc _ _; simp
  | cons p rest ih =>
    intro acc hfresh hdist
    obtain ⟨k, v⟩ := p
    simp only [List.all_cons, Bool.and_eq_true] at hfresh
    simp only [keysDistinctOut, Bool.and_eq_true] at hdist
    simp only [List.foldl_cons]
    rw [hashInsertOut_fresh acc k v hfresh.1, ih (acc ++ [(k, v)]) ?fresh hdist.2]
    · simp
    case fresh =>
      rw [List.all_eq_true] at hfresh ⊢
      intro q hq
      have h1 : keyFreshOut acc q.1 = true := hfresh.2 q hq
      have h2 : (!beqYO k q.1) = true := by
        have := (List.all_eq_true.mp hdist.1) q hq
        simpa using this
      simp [keyFreshOut, List.all_append] at h1 ⊢
      exact ⟨h1, by simpa using h2⟩

/-- Under pairwise-distinct keys, collecting into a `LinkedHashMap` is the
identity on the pair list. -/
theorem collectPairs_distinct (l : List (YamlOutput × YamlOutput))
    (hdist : keysDistinctOut l = true) : collectPairs l = l := by
  have := collect_fresh l [] (by simp [keyFreshOut]) hdist
  simpa [collectPairs] using this

/-- C9, counterexample: `Hash` conversion is not element-wise, because
`collect` folds insertions and two distinct `Aliased` keys with the same name
collapse to the same `Alias` key; the later value overwrites the earlier. -/
theorem C9_counterexample :
    toOutput (.Hash [(.Aliased "a".data (some .Null), .Integer 1),
        (.Aliased "a".data none, .Integer 2)])
      = .Hash [(.Alias "a".data, .Integer 2)]
    ∧ toOutputPairs [(.Aliased "a".data (some .Null), .Integer 1),
        (.Aliased "a".data none, .Integer 2)]
      = [(.Alias "a".data, .Integer 1), (.Alias "a".data, .Integer 2)]
    ∧ YamlOutput.Hash [(.Alias "a".data, .Integer 2)]
      ≠ .Hash [(.Alias "a".data, .Integer 1), (.Alias "a".data, .Integer 2)] := by
  refine ⟨rfl, rfl, fun h => ?_⟩
  injection h with h
  simp at h

/-- C9, amended: conversion is total and never fails; scalar variants,
`Null` and `BadValue` map identically; `Anchored (name, child)` maps to
`Anchored (name, convert child)`; `Aliased (name, p)` maps to the bare
`Alias name` for every payload state `p`; `Array` recurses element-wise;
`Hash` recurses into each pair and re-collects the converted pairs with
insert semantics, which is element-wise (order preserved) whenever the
converted keys are pairwise distinct. -/
theorem C9_conversion :
    (∀ s, toOutput (.Real s) = .Real s)
      ∧ (∀ i, toOutput (.Integer i) = .Integer i)
      ∧ (∀ s, toOutput (.String s) = .String s)
      ∧ (∀ b, toOutput (.Boolean b) = .Boolean b)
      ∧ toOutput .Null = .Null
      ∧ toOutput .BadValue = .BadValue
      ∧ (∀ n c, toOutput (.Anchored n c) = .Anchored n (toOutput c))
      ∧ (∀ n p, toOutput (.Aliased n p) = .Alias n)
      ∧ (∀ v, toOutput (.Array v) = .Array (toOutputList v))
      ∧ toOutputList [] = []
      ∧ (∀ a l, toOutputList (a :: l) = toOutput a :: toOutputList l)
      ∧ (∀ h, toOutput (.Hash h) = .Hash (collectPairs (toOutputPairs h)))
      ∧ toOutputPairs [] = []
      ∧ (∀ k v l, toOutputPairs ((k, v) :: l)
          = (toOutput k, toOutput v) :: toOutputPairs l)
      ∧ (∀ h, keysDistinctOut (toOutputPairs h) = true →
          toOutput (.Hash h) = .Hash (toOutputPairs h)) := by
  refine ⟨fun _ => rfl, fun _ => rfl, fun _ => rfl, fun _ => rfl, rfl, rfl,
    fun _ _ => rfl, fun _ _ => rfl, fun _ => rfl, rfl, fun _ _ => rfl,
    fun _ => rfl, rfl, fun _ _ _ => rfl, fun h hd => ?_⟩
  show YamlOutput.Hash (collectPairs (toOutputPairs h)) = _
  rw [collectPairs_distinct _ hd]

/-- C9 witness for the hypothesis-bearing conjunct: a two-entry hash with
distinct keys converts element-wise. -/
theorem C9_witness :
    toOutput (.Hash [(.String "a".data, .Integer 1), (.String "b".data, .Null)])
      = .Hash [(.String "a".data, .Integer 1), (.String "b".data, .Null)] :=
  C9_conversion.2.2.2.2.2.2.2.2.2.2.2.2.2.2
    [(.String "a".data, .Integer 1), (.String "b".data, .Null)] (by decide)

/-- C6: string-key and integer indexing never fail: a non-hash receiver
(after unwrapping), an absent key, an out-of-range index on an array, or a
receiver that is neither array nor hash all yield `BadValue`; and since
`BadValue` unwraps to no container, indexing `BadValue` again yields
`BadValue`. -/
theorem C6_indexing_safety :
    (∀ n s, n.as_hash = none → YamlInput.indexStr n s = .BadValue)
      ∧ (∀ n s h, n.as_hash = some h → hashGet h (.String s) = none →
          YamlInput.indexStr n s = .BadValue)
      ∧ (∀ n i v, n.as_vec = some v → v.length ≤ i →
          YamlInput.indexNat n i = .BadValue)
      ∧ (∀ n i, n.as_vec = none → n.as_hash = none →
          YamlInput.indexNat n i = .BadValue)
      ∧ (∀ n i h, n.as_vec = none → n.as_hash = some h →
          hashGet h (.Integer (usizeAsI64 i)) = none →
          YamlInput.indexNat n i = .BadValue)
      ∧ (∀ s, YamlInput.indexStr .BadValue s = .BadValue)
      ∧ (∀ i, YamlInput.indexNat .BadValue i = .BadValue) := by
  refine ⟨fun n s h => ?_, fun n s h hh hg => ?_, fun n i v hv hlen => ?_,
    fun n i hv hh => ?_, fun n i h hv hh hg => ?_, fun s => rfl, fun i => rfl⟩
  · simp [YamlInput.indexStr, h]
  · simp [YamlInput.indexStr, hh, hg]
  · simp [YamlInput.indexNat, hv, List.getElem?_eq_none hlen]
  · simp [YamlInput.indexNat, hv, hh]
  · simp [YamlInput.indexNat, hv, hh, hg]

/-- C6 witness: concrete instances of every conjunct. -/
theorem C6_witness :
    YamlInput.indexStr (.Integer 7) "a".data = .BadValue
      ∧ YamlInput.indexStr (.Hash [(.String "x".data, .Null)]) "a".data = .BadValue
      ∧ YamlInput.indexNat (.Array [.Null]) 5 = .BadValue
      ∧ YamlInput.indexNat (.Boolean true) 0 = .BadValue
      ∧ YamlInput.indexNat (.Hash [(.String "x".data, .Null)]) 0 = .BadValue
      ∧ YamlInput.indexStr .BadValue "k".data = .BadValue
      ∧ YamlInput.indexNat .BadValue 3 = .BadValue :=
  ⟨C6_indexing_safety.1 _ _ rfl,
   C6_indexing_safety.2.1 _ "a".data _ rfl (by simp [hashGet, beqYI]),
   C6_indexing_safety.2.2.1 _ 5 _ rfl (by decide),
   C6_indexing_safety.2.2.2.1 _ 0 rfl rfl,
   C6_indexing_safety.2.2.2.2.1 _ 0 _ rfl rfl
     (by simp [hashGet, beqYI]),
   C6_indexing_safety.2.2.2.2.2.1 _,
   C6_indexing_safety.2.2.2.2.2.2 _⟩

/-- C5: a plain scalar with an explicit core (`!!`) tag coerces — `bool`
accepts exactly `true`/`false` else `BadValue`; `int` accepts a base-10
signed 64-bit literal else `BadValue`; `float` accepts the float grammar and
keeps the original text else `BadValue`; `null` accepts exactly `~`/`null`
else `BadValue`; any other core suffix and any non-core handle give a
string. A mismatch is not fatal: the surrounding document still loads with
that leaf as `BadValue` (final conjunct, a mismatched `!!int` inside a
sequence). -/
theorem C5_explicit_tag :
    (∀ v, resolve_scalar v .Plain (some (.Tag "!!".data "bool".data))
        = match parse_bool v with
          | none => .BadValue
          | some b => .Boolean b)
      ∧ (∀ v, resolve_scalar v .Plain (some (.Tag "!!".data "int".data))
          = match parse_i64 v with
            | none => .BadValue
            | some i => .Integer i)
      ∧ (∀ v, resolve_scalar v .Plain (some (.Tag "!!".data "float".data))
          = if parse_f64_ok v then .Real v else .BadValue)
      ∧ (∀ v, resolve_scalar v .Plain (some (.Tag "!!".data "null".data))
          = if v = "~".data ∨ v = "null".data then .Null else .BadValue)
      ∧ (∀ v suffix, suffix ≠ "bool".data → suffix ≠ "int".data →
          suffix ≠ "float".data → suffix ≠ "null".data →
          resolve_scalar v .Plain (some (.Tag "!!".data suffix)) = .String v)
      ∧ (∀ v handle suffix, handle ≠ "!!".data →
          resolve_scalar v .Plain (some (.Tag handle suffix)) = .String v)
      ∧ load_events [.DocumentStart, .SequenceStart none,
          .Scalar "string".data .Plain none (some (.Tag "!!".data "int".data)),
          .Scalar "1".data .Plain none none, .SequenceEnd, .DocumentEnd]
          = some [.Array [.BadValue, .Integer 1]] := by
  refine ⟨fun v => rfl, fun v => rfl, fun v => rfl, fun v => rfl,
    fun v s h1 h2 h3 h4 => ?_, fun v h s hh => ?_, rfl⟩
  · simp [resolve_scalar, h1, h2, h3, h4]
  · simp [resolve_scalar, hh]

/-- C5 witness: the hypothesis-bearing conjuncts at concrete tags — a
`!!str`-tagged number stays a string, and a custom (`!`) tag is a string. -/
theorem C5_witness :
    resolve_scalar "0".data .Plain (some (.Tag "!!".data "str".data))
        = .String "0".data
      ∧ resolve_scalar "7".data .Plain (some (.Tag "!".data "x".data))
        = .String "7".data :=
  ⟨C5_explicit_tag.2.2.2.2.1 "0".data "str".data (by decide) (by decide)
      (by decide) (by decide),
   C5_explicit_tag.2.2.2.2.2.1 "7".data "!".data "x".data (by decide)⟩

/-- C3: untagged plain-scalar resolution tries its rules in order, first
match wins — `0x` hex integer; `0o` octal integer; `+`-prefixed signed
integer; exact `~`/`null`; exact `true`/`false`; base-10 signed 64-bit
integer; float grammar (with the case-insensitive `.inf`/`-.inf`/`.nan`
spellings) keeping the original text; else a verbatim string — together
with the spec's concrete classifications, and a quoted `0` staying a
string. -/
theorem C3_untagged_resolution :
    (∀ v r i, YamlInput.strip0x v = some r → from_str_radix 16 r = some i →
        YamlInput.from_str v = .Integer i)
      ∧ (∀ v r i, (YamlInput.strip0x v).bind (from_str_radix 16) = none →
          YamlInput.strip0o v = some r → from_str_radix 8 r = some i →
          YamlInput.from_str v = .Integer i)
      ∧ (∀ v r i, (YamlInput.strip0x v).bind (from_str_radix 16) = none →
          (YamlInput.strip0o v).bind (from_str_radix 8) = none →
          YamlInput.stripPlus v = some r → parse_i64 r = some i →
          YamlInput.from_str v = .Integer i)
      ∧ (∀ v, (YamlInput.strip0x v).bind (from_str_radix 16) = none →
          (YamlInput.strip0o v).bind (from_str_radix 8) = none →
          (YamlInput.stripPlus v).bind parse_i64 = none →
          (v = "~".data ∨ v = "null".data) → YamlInput.from_str v = .Null)
      ∧ (∀ v, (YamlInput.strip0x v).bind (from_str_radix 16) = none →
          (YamlInput.strip0o v).bind (from_str_radix 8) = none →
          (YamlInput.stripPlus v).bind parse_i64 = none →
          ¬(v = "~".data ∨ v = "null".data) →
          (v = "true".data → YamlInput.from_str v = .Boolean true)
            ∧ (v = "false".data → YamlInput.from_str v = .Boolean false))
      ∧ (∀ v i, (YamlInput.strip0x v).bind (from_str_radix 16) = none →
          (YamlInput.strip0o v).bind (from_str_radix 8) = none →
          (YamlInput.stripPlus v).bind parse_i64 = none →
          ¬(v = "~".data ∨ v = "null".data) → v ≠ "true".data →
          v ≠ "false".data → parse_i64 v = some i →
          YamlInput.from_str v = .Integer i)
      ∧ (∀ v, (YamlInput.strip0x v).bind (from_str_radix 16) = none →
          (YamlInput.strip0o v).bind (from_str_radix 8) = none →
          (YamlInput.stripPlus v).bind parse_i64 = none →
          ¬(v = "~".data ∨ v = "null".data) → v ≠ "true".data →
          v ≠ "false".data → parse_i64 v = none →
          ((parse_f64_ok v = true → YamlInput.from_str v = .Real v)
            ∧ (parse_f64_ok v = false → YamlInput.from_str v = .String v)))
      ∧ YamlInput.from_str "123".data = .Integer 123
      ∧ YamlInput.from_str "-321".data = .Integer (-321)
      ∧ YamlInput.from_str "1.23".data = .Real "1.23".data
      ∧ YamlInput.from_str "0xFF".data = .Integer 255
      ∧ YamlInput.from_str "0o77".data = .Integer 63
      ∧ YamlInput.from_str "+12345".data = .Integer 12345
      ∧ YamlInput.from_str "~".data = .Null
      ∧ YamlInput.from_str "null".data = .Null
      ∧ YamlInput.from_str "true".data = .Boolean true
      ∧ YamlInput.from_str "false".data = .Boolean false
      ∧ resolve_scalar "0".data .DoubleQuoted none = .String "0".data := by
  refine ⟨fun v r i h1 h2 => ?_, fun v r i h0 h1 h2 => ?_,
    fun v r i h0 h0' h1 h2 => ?_, fun v h0 h0' h0'' h1 => ?_,
    fun v h0 h0' h0'' h1 => ⟨fun ht => ?_, fun hf => ?_⟩,
    fun v i h0 h0' h0'' h1 h2 h3 h4 => ?_,
    fun v h0 h0' h0'' h1 h2 h3 h4 => ⟨fun hr => ?_, fun hs => ?_⟩,
    rfl, rfl, rfl, rfl, rfl, rfl, rfl, rfl, rfl, rfl, rfl⟩
  · simp [YamlInput.from_str, h1, h2]
  · simp [YamlInput.from_str, h0, h1, h2]
  · simp [YamlInput.from_str, h0, h0', h1, h2]
  · simp [YamlInput.from_str, h0, h0', h0'', h1]
  · subst ht; rfl
  · subst hf; rfl
  · simp [YamlInput.from_str, h0, h0', h0'', h1, h2, h3, h4]
  · simp [YamlInput.from_str, h0, h0', h0'', h1, h2, h3, h4, hr]
  · simp [YamlInput.from_str, h0, h0', h0'', h1, h2, h3, h4, hs]

/-- C3 witness: the ordered rules applied at concrete inputs, discharging
their premises — hex, octal, plus-prefixed, null word, booleans, base-10,
float, and the verbatim-string fallback. -/
theorem C3_witness :
    YamlInput.from_str "0x10".data = .Integer 16
      ∧ YamlInput.from_str "0o10".data = .Integer 8
      ∧ YamlInput.from_str "+7".data = .Integer 7
      ∧ YamlInput.from_str "~".data = .Null
      ∧ YamlInput.from_str "true".data = .Boolean true
      ∧ YamlInput.from_str "42".data = .Integer 42
      ∧ YamlInput.from_str "4.5".data = .Real "4.5".data
      ∧ YamlInput.from_str "hello".data = .String "hello".data :=
  ⟨C3_untagged_resolution.1 _ "10".data 16 rfl (by decide),
   C3_untagged_resolution.2.1 _ "10".data 8 (by decide) rfl (by decide),
   C3_untagged_resolution.2.2.1 _ "7".data 7 (by decide) (by decide) rfl
     (by decide),
   C3_untagged_resolution.2.2.2.1 _ (by decide) (by decide) (by decide)
     (by decide),
   (C3_untagged_resolution.2.2.2.2.1 _ (by decide) (by decide) (by decide)
     (by decide)).1 rfl,
   C3_untagged_resolution.2.2.2.2.2.1 _ 42 (by decide) (by decide)
     (by decide) (by decide) (by decide) (by decide) (by decide),
   (C3_untagged_resolution.2.2.2.2.2.2.1 _ (by decide) (by decide)
     (by decide) (by decide) (by decide) (by decide) (by decide)).1
     (by decide),
   (C3_untagged_resolution.2.2.2.2.2.2.1 _ (by decide) (by decide)
     (by decide) (by decide) (by decide) (by decide) (by decide)).2
     (by decide)⟩

/-- What `insert_new_node` does to the anchor map and the finished-document
list: the anchor map gains exactly the node as passed (wrapped or not) under
its anchor name, or is untouched when no anchor is pending; the document
list is never touched. -/
theorem insert_new_node_obs (node : YamlInput × Option Str) (st st' : YamlLoader)
    (h : insert_new_node node st = some st') :
    st'.anchor_map
        = (match node.2 with
          | some a => btreeInsert st.anchor_map a node.1
          | none => st.anchor_map)
      ∧ st'.docs = st.docs := by
  obtain ⟨n, a⟩ := node
  cases a <;>
    simp only [insert_new_node] at h <;>
    (repeat' split at h) <;>
    cases h <;>
    exact ⟨rfl, rfl⟩

/-- C2, counterexample: closing an anchored sequence records the
`Anchored`-wrapped node in the anchor table, not the unwrapped container the
claim states. -/
theorem C2_counterexample :
    (processEvents [.SequenceStart (some "A".data), .SequenceEnd]
        initial_loader).map (fun st => st.anchor_map)
      = some [("A".data, .Anchored "A".data (.Array []))]
    ∧ YamlInput.Anchored "A".data (.Array []) ≠ .Array [] :=
  ⟨rfl, fun h => YamlInput.noConfusion h⟩

/-- C2, amended: when a node carrying anchor name `A` completes (container
close event or anchored scalar), the builder wraps it as `Anchored (A, node)`
and runs Insert with that wrapped node and the pending anchor, and Insert
records `A ↦ Anchored (A, node)` — the same wrapped node that goes into the
parent — in the anchor table. -/
theorem C2_anchor_recording :
    (∀ st (v : YamlInput) (a : Str) rest, st.doc_stack = (v, some a) :: rest →
        on_event .SequenceEnd st
          = insert_new_node (.Anchored a v, some a) { st with doc_stack := rest })
      ∧ (∀ st (v : YamlInput) (a : Str) rest k ks,
          st.doc_stack = (v, some a) :: rest → st.key_stack = k :: ks →
          on_event .MappingEnd st
            = insert_new_node (.Anchored a v, some a)
                { st with doc_stack := rest, key_stack := ks })
      ∧ (∀ v style tag a st,
          on_event (.Scalar v style (some a) tag) st
            = insert_new_node
                (.Anchored a (resolve_scalar v style tag), some a) st)
      ∧ (∀ n a st st', insert_new_node (n, some a) st = some st' →
          st'.anchor_map = btreeInsert st.anchor_map a n) := by
  refine ⟨fun st v a rest h => ?_, fun st v a rest k ks h hk => ?_,
    fun v style tag a st => rfl, fun n a st st' h => ?_⟩
  · simp [on_event, h]
  · simp [on_event, h, hk]
  · exact (insert_new_node_obs (n, some a) st st' h).1

/-- C2 witness: the amended recording behavior at concrete states — closing
an anchored empty sequence on an empty stack stores the wrapper in the
table. -/
theorem C2_witness :
    on_event .SequenceEnd
        ⟨[], [(.Array [], some "A".data)], [], []⟩
      = insert_new_node (.Anchored "A".data (.Array []), some "A".data)
          ⟨[], [], [], []⟩
    ∧ (⟨[], [(.Anchored "A".data (.Array []), some "A".data)], [],
          [("A".data, .Anchored "A".data (.Array []))]⟩ : YamlLoader).anchor_map
        = btreeInsert [] "A".data (.Anchored "A".data (.Array [])) :=
  ⟨C2_anchor_recording.1 ⟨[], [(.Array [], some "A".data)], [], []⟩
      (.Array []) "A".data [] rfl,
   C2_anchor_recording.2.2.2 (.Anchored "A".data (.Array [])) "A".data
      ⟨[], [], [], []⟩
      ⟨[], [(.Anchored "A".data (.Array []), some "A".data)], [],
        [("A".data, .Anchored "A".data (.Array []))]⟩
      (by with_unfolding_all rfl)⟩

/-- C7: an alias event whose name is absent from the anchor table produces
`Aliased (name, none)` and inserts it with no pending anchor; such an insert
never changes the anchor table or the finished documents (so the node is
never retried or patched); and the spec's self-referential forward alias
(`b2: *DEFAULT` inside the still-open `&DEFAULT` mapping) loads to an
unresolved alias node without error and is not updated when the anchor
closes. -/
theorem C7_unresolved_alias :
    (∀ st id, btreeGet st.anchor_map id = none →
        on_event (.Alias id) st = insert_new_node (.Aliased id none, none) st)
      ∧ (∀ (n : YamlInput) st st', insert_new_node (n, none) st = some st' →
          st'.anchor_map = st.anchor_map ∧ st'.docs = st.docs)
      ∧ load_events [.DocumentStart, .MappingStart none,
          .Scalar "a1".data .Plain none none, .MappingStart (some "DEFAULT".data),
          .Scalar "b1".data .Plain none none, .Scalar "4".data .Plain none none,
          .Scalar "b2".data .Plain none none, .Alias "DEFAULT".data,
          .MappingEnd, .MappingEnd, .DocumentEnd]
        = some [.Hash [(.String "a1".data,
            .Anchored "DEFAULT".data (.Hash [(.String "b1".data, .Integer 4),
              (.String "b2".data, .Aliased "DEFAULT".data none)]))]] := by
  refine ⟨fun st id h => ?_, fun n st st' h => insert_new_node_obs (n, none) st st' h,
    by with_unfolding_all rfl⟩
  simp [on_event, h]

/-- C7 witness: the alias arm at a concrete state with an empty anchor
table, and the insert-preservation fact at a concrete insert. -/
theorem C7_witness :
    on_event (.Alias "X".data) ⟨[], [(.Array [], none)], [], []⟩
        = insert_new_node (.Aliased "X".data none, none)
            ⟨[], [(.Array [], none)], [], []⟩
      ∧ ((⟨[], [(.Array [], some "Q".data)], [], []⟩ : YamlLoader).anchor_map = []
          ∧ (⟨[], [(.Array [], some "Q".data)], [], []⟩ : YamlLoader).docs = []) :=
  ⟨C7_unresolved_alias.1 ⟨[], [(.Array [], none)], [], []⟩ "X".data rfl,
   C7_unresolved_alias.2.1 .Null ⟨[], [], [], []⟩
     ⟨[], [(.Null, none)], [], []⟩ (by with_unfolding_all rfl)⟩

/-- Inserting under an anchor name makes that name map to the new node. -/
theorem btreeGet_insert_same (m : List (Str × YamlInput)) (k : Str)
    (v : YamlInput) : btreeGet (btreeInsert m k v) k = some v := by
  induction m with
  | nil => simp [btreeInsert, btreeGet]
  | cons p rest ih =>
    obtain ⟨k', v'⟩ := p
    by_cases hk : k' = k
    · subst hk
      simp [btreeInsert, btreeGet]
    · simp [btreeInsert, btreeGet, hk, ih]

/-- Inserting under an anchor name leaves every other name's entry as it
was. -/
theorem btreeGet_insert_other (m : List (Str × YamlInput)) (k : Str)
    (v : YamlInput) (k' : Str) (h : k' ≠ k) :
    btreeGet (btreeInsert m k v) k' = btreeGet m k' := by
  induction m with
  | nil =>
    have hne : k ≠ k' := Ne.symm h
    simp [btreeInsert, btreeGet, hne]
  | cons p rest ih =>
    obtain ⟨k'', v''⟩ := p
    by_cases hk : k'' = k
    · subst hk
      have hne : k'' ≠ k' := Ne.symm h
      simp [btreeInsert, btreeGet, hne]
    · by_cases hk' : k'' = k'
      · subst hk'
        simp [btreeInsert, btreeGet, hk]
      · simp [btreeInsert, btreeGet, hk, hk', ih]

/-- An entry present before an insertion is still present after it. -/
theorem btreeGet_insert_isSome (m : List (Str × YamlInput)) (k : Str)
    (v : YamlInput) (k' : Str)
    (h : (btreeGet m k').isSome = true) :
    (btreeGet (btreeInsert m k v) k').isSome = true := by
  by_cases hk : k' = k
  · subst hk
    rw [btreeGet_insert_same]
    rfl
  · rw [btreeGet_insert_other m k v k' hk]
    exact h

/-- `insert_new_node` with a pending anchor sets exactly that table entry. -/
theorem insert_anchor_some (n : YamlInput) (a : Str) (st st' : YamlLoader)
    (h : insert_new_node (n, some a) st = some st') :
    st'.anchor_map = btreeInsert st.anchor_map a n :=
  (insert_new_node_obs (n, some a) st st' h).1

/-- `insert_new_node` with no pending anchor leaves the table unchanged. -/
theorem insert_anchor_none (n : YamlInput) (st st' : YamlLoader)
    (h : insert_new_node (n, none) st = some st') :
    st'.anchor_map = st.anchor_map :=
  (insert_new_node_obs (n, none) st st' h).1

/-- No event ever removes an anchor-table entry: every name that resolves
before an event still resolves after it. -/
theorem on_event_anchor_monotone (e : Event) (st st' : YamlLoader)
    (h : on_event e st = some st') (k : Str)
    (hk : (btreeGet st.anchor_map k).isSome = true) :
    (btreeGet st'.anchor_map k).isSome = true := by
  cases e <;> simp only [on_event] at h
  case DocumentStart => cases h; simpa using hk
  case SequenceStart aid => cases h; simpa using hk
  case MappingStart aid => cases h; simpa using hk
  case OtherEvent => cases h; simpa using hk
  case DocumentEnd =>
    split at h <;> cases h <;> simpa using hk
  case SequenceEnd =>
    split at h
    · cases h
    · split at h
      · rw [insert_anchor_some _ _ _ _ h]
        exact btreeGet_insert_isSome _ _ _ _ (by simpa using hk)
      · rw [insert_anchor_none _ _ _ h]
        simpa using hk
  case MappingEnd =>
    split at h
    · cases h
    · split at h
      · cases h
      · split at h
        · rw [insert_anchor_some _ _ _ _ h]
          exact btreeGet_insert_isSome _ _ _ _ (by simpa using hk)
        · rw [insert_anchor_none _ _ _ h]
          simpa using hk
  case Scalar v style aid tag =>
    split at h
    · rw [insert_anchor_some _ _ _ _ h]
      exact btreeGet_insert_isSome _ _ _ _ (by simpa using hk)
    · rw [insert_anchor_none _ _ _ h]
      simpa using hk
  case Alias id =>
    rw [insert_anchor_none _ _ _ h]
    simpa using hk

/-- C8: within one load call the anchor table is never cleared — every event
preserves existing names (in particular `DocumentEnd` leaves the table
untouched, so anchors stay visible across the documents of one stream);
re-defining a name overwrites its entry while every other entry is kept; and
a concrete two-document run in which document two re-defines anchor `A`
shows the earlier document's anchor resolving in the later document, the
alias before the redefinition keeping the old node, and the alias after it
seeing the new one. -/
theorem C8_anchor_table_persistence :
    (∀ e st st', on_event e st = some st' →
        ∀ k, (btreeGet st.anchor_map k).isSome = true →
          (btreeGet st'.anchor_map k).isSome = true)
      ∧ (∀ st st', on_event .DocumentEnd st = some st' →
          st'.anchor_map = st.anchor_map)
      ∧ (∀ m k v, btreeGet (btreeInsert m k v) k = some v)
      ∧ (∀ m k v k', k' ≠ k → btreeGet (btreeInsert m k v) k' = btreeGet m k')
      ∧ load_events [.DocumentStart,
          .Scalar "1".data .Plain (some "A".data) none, .DocumentEnd,
          .DocumentStart, .SequenceStart none, .Alias "A".data,
          .Scalar "2".data .Plain (some "A".data) none, .Alias "A".data,
          .SequenceEnd, .DocumentEnd]
        = some [.Anchored "A".data (.Integer 1),
            .Array [.Aliased "A".data (some (.Anchored "A".data (.Integer 1))),
              .Anchored "A".data (.Integer 2),
              .Aliased "A".data (some (.Anchored "A".data (.Integer 2)))]] := by
  refine ⟨on_event_anchor_monotone, fun st st' h => ?_,
    btreeGet_insert_same, btreeGet_insert_other, by with_unfolding_all rfl⟩
  simp only [on_event] at h
  split at h <;> cases h <;> rfl

/-- C8 witness: persistence across a document boundary at a concrete state,
overwrite at a concrete table, and other-key preservation at distinct
names. -/
theorem C8_witness :
    (btreeGet (⟨[.BadValue], [], [], [("A".data, .Null)]⟩ : YamlLoader).anchor_map
        "A".data).isSome = true
      ∧ (⟨[.BadValue], [], [], [("A".data, .Null)]⟩ : YamlLoader).anchor_map
        = (⟨[], [], [], [("A".data, .Null)]⟩ : YamlLoader).anchor_map
      ∧ btreeGet (btreeInsert [("A".data, .Null)] "A".data (.Integer 2))
          "A".data = some (.Integer 2)
      ∧ btreeGet (btreeInsert [("A".data, .Null)] "B".data (.Integer 2))
          "A".data = btreeGet [("A".data, .Null)] "A".data :=
  ⟨C8_anchor_table_persistence.1 .DocumentEnd
      ⟨[], [], [], [("A".data, .Null)]⟩
      ⟨[.BadValue], [], [], [("A".data, .Null)]⟩ (by with_unfolding_all rfl)
      "A".data rfl,
   C8_anchor_table_persistence.2.1 ⟨[], [], [], [("A".data, .Null)]⟩
      ⟨[.BadValue], [], [], [("A".data, .Null)]⟩ (by with_unfolding_all rfl),
   C8_anchor_table_persistence.2.2.1 [("A".data, .Null)] "A".data (.Integer 2),
   C8_anchor_table_persistence.2.2.2.1 [("A".data, .Null)] "B".data
      (.Integer 2) "A".data (by decide)⟩

/-- Every result of untagged scalar resolution is a scalar node, hence free
of bad hash keys. -/
theorem noBadKey_from_str (v : Str) : noBadKey (YamlInput.from_str v) = true := by
  unfold YamlInput.from_str
  (repeat' split) <;> simp [noBadKey]

/-- Every result of full scalar resolution is a scalar node, hence free of
bad hash keys. -/
theorem noBadKey_resolve_scalar (v : Str) (s : TScalarStyle)
    (t : Option TokenType) : noBadKey (resolve_scalar v s t) = true := by
  unfold resolve_scalar
  (repeat' split) <;> first
    | simp [noBadKey]
    | exact noBadKey_from_str v

theorem noBadKeyList_append (a b : List YamlInput) :
    noBadKeyList (a ++ b) = (noBadKeyList a && noBadKeyList b) := by
  induction a with
  | nil => simp [noBadKeyList]
  | cons x rest ih => simp [noBadKeyList, ih, Bool.and_assoc]

/-- Inserting a non-`BadValue`, bad-key-free pair into a bad-key-free hash
keeps it bad-key-free. -/
theorem noBadKeyPairs_hashInsert (h : HashInput) (k v : YamlInput)
    (hh : noBadKeyPairs h = true) (hk1 : k.is_badvalue = false)
    (hk2 : noBadKey k = true) (hv : noBadKey v = true) :
    noBadKeyPairs (hashInsert h k v) = true := by
  induction h with
  | nil => simp [hashInsert, noBadKeyPairs, hk1, hk2, hv]
  | cons p rest ih =>
    obtain ⟨k', v'⟩ := p
    simp only [noBadKeyPairs, Bool.and_eq_true, Bool.not_eq_true'] at hh
    obtain ⟨⟨⟨hkb, hknb⟩, hvnb⟩, hrest⟩ := hh
    unfold hashInsert
    split
    · simp [noBadKeyPairs, hkb, hknb, hv, hrest]
    · simp [noBadKeyPairs, hkb, hknb, hvnb, ih hrest]

/-- A value looked up in a bad-key-free anchor table is bad-key-free. -/
theorem noBadKey_btreeGet (m : List (Str × YamlInput)) (id : Str)
    (x : YamlInput) (hm : m.all (fun p => noBadKey p.2) = true)
    (h : btreeGet m id = some x) : noBadKey x = true := by
  induction m with
  | nil => simp [btreeGet] at h
  | cons p rest ih =>
    obtain ⟨k', v'⟩ := p
    simp only [List.all_cons, Bool.and_eq_true] at hm
    unfold btreeGet at h
    split at h
    · cases h; exact hm.1
    · exact ih hm.2 h

/-- Inserting a bad-key-free value into a bad-key-free anchor table keeps it
bad-key-free. -/
theorem all_noBadKey_btreeInsert (m : List (Str × YamlInput)) (k : Str)
    (v : YamlInput) (hm : m.all (fun p => noBadKey p.2) = true)
    (hv : noBadKey v = true) :
    (btreeInsert m k v).all (fun p => noBadKey p.2) = true := by
  induction m with
  | nil => simp [btreeInsert, hv]
  | cons p rest ih =>
    obtain ⟨k', v'⟩ := p
    simp only [List.all_cons, Bool.and_eq_true] at hm
    unfold btreeInsert
    split
    · simp [hv, hm.2]
    · simp [hm.1, ih hm.2]

/-- Packaging lemma for the bad-key-free state invariant. -/
theorem loaderNoBadKey_mk (d : List YamlInput) (s : List (YamlInput × Option Str))
    (k : List YamlInput) (m : List (Str × YamlInput))
    (hd : d.all noBadKey = true) (hs : (s.all fun p => noBadKey p.1) = true)
    (hk : k.all noBadKey = true) (hm : (m.all fun p => noBadKey p.2) = true) :
    loaderNoBadKey ⟨d, s, k, m⟩ = true := by
  simp [loaderNoBadKey, hd, hs, hk, hm]

/-- `insert_new_node` preserves the bad-key-free state invariant when the
inserted node is itself bad-key-free (stated on explicit state components). -/
theorem insert_preserves_noBadKey (n : YamlInput) (a : Option Str)
    (sdocs : List YamlInput) (sstack : List (YamlInput × Option Str))
    (skeys : List YamlInput) (samap : List (Str × YamlInput)) (st' : YamlLoader)
    (h : insert_new_node (n, a) ⟨sdocs, sstack, skeys, samap⟩ = some st')
    (hn : noBadKey n = true)
    (hdocs : sdocs.all noBadKey = true)
    (hstack : (sstack.all fun p => noBadKey p.1) = true)
    (hkeys : skeys.all noBadKey = true)
    (hamap : (samap.all fun p => noBadKey p.2) = true) :
    loaderNoBadKey st' = true := by
  have hins : ((match a with
      | some anchor => btreeInsert samap anchor n
      | none => samap).all fun p => noBadKey p.2) = true := by
    cases a
    · exact hamap
    · exact all_noBadKey_btreeInsert _ _ _ hamap hn
  rcases sstack with _ | ⟨⟨nn, pa⟩, rest⟩
  · cases a <;> simp only [insert_new_node] at h <;> cases h <;>
      exact loaderNoBadKey_mk _ _ _ _ hdocs (by simp [hn]) hkeys hins
  · simp only [List.all_cons, Bool.and_eq_true] at hstack
    obtain ⟨htop, hrest⟩ := hstack
    cases nn <;> cases a <;>
      first
        | (simp only [insert_new_node] at h; exact Option.noConfusion h)
        | skip
    case Array.none v =>
      simp only [insert_new_node] at h
      cases h
      have hv : noBadKeyList v = true := by simpa [noBadKey] using htop
      exact loaderNoBadKey_mk _ _ _ _ hdocs
        (by simp [noBadKey, noBadKeyList_append, noBadKeyList, hv, hn, hrest])
        hkeys hins
    case Array.some v anchor =>
      simp only [insert_new_node] at h
      cases h
      have hv : noBadKeyList v = true := by simpa [noBadKey] using htop
      exact loaderNoBadKey_mk _ _ _ _ hdocs
        (by simp [noBadKey, noBadKeyList_append, noBadKeyList, hv, hn, hrest])
        hkeys hins
    case Hash.none hh =>
      rcases skeys with _ | ⟨ck, krest⟩
      · simp only [insert_new_node] at h
        exact Option.noConfusion h
      · simp only [insert_new_node] at h
        simp only [List.all_cons, Bool.and_eq_true] at hkeys
        by_cases hck : ck.is_badvalue = true
        · rw [if_pos hck] at h
          cases h
          exact loaderNoBadKey_mk _ _ _ _ hdocs (by simp [htop, hrest])
            (by simp [hn, hkeys.2]) hins
        · rw [if_neg hck] at h
          cases h
          have hhh : noBadKeyPairs hh = true := by simpa [noBadKey] using htop
          have hnewh : noBadKeyPairs (hashInsert hh ck n) = true :=
            noBadKeyPairs_hashInsert hh ck n hhh (by simpa using hck)
              hkeys.1 hn
          exact loaderNoBadKey_mk _ _ _ _ hdocs
            (by simp [noBadKey, hnewh, hrest])
            (by simp [noBadKey, hkeys.2]) hins
    case Hash.some hh anchor =>
      rcases skeys with _ | ⟨ck, krest⟩
      · simp only [insert_new_node] at h
        exact Option.noConfusion h
      · simp only [insert_new_node] at h
        simp only [List.all_cons, Bool.and_eq_true] at hkeys
        by_cases hck : ck.is_badvalue = true
        · rw [if_pos hck] at h
          cases h
          exact loaderNoBadKey_mk _ _ _ _ hdocs (by simp [htop, hrest])
            (by simp [hn, hkeys.2]) hins
        · rw [if_neg hck] at h
          cases h
          have hhh : noBadKeyPairs hh = true := by simpa [noBadKey] using htop
          have hnewh : noBadKeyPairs (hashInsert hh ck n) = true :=
            noBadKeyPairs_hashInsert hh ck n hhh (by simpa using hck)
              hkeys.1 hn
          exact loaderNoBadKey_mk _ _ _ _ hdocs
            (by simp [noBadKey, hnewh, hrest])
            (by simp [noBadKey, hkeys.2]) hins

/-- Every builder transition preserves the bad-key-free state invariant. -/
theorem on_event_preserves_noBadKey (e : Event) (st st' : YamlLoader)
    (h : on_event e st = some st') (hst : loaderNoBadKey st = true) :
    loaderNoBadKey st' = true := by
  obtain ⟨sdocs, sstack, skeys, samap⟩ := st
  simp only [loaderNoBadKey, Bool.and_eq_true] at hst
  obtain ⟨⟨⟨hdocs, hstack⟩, hkeys⟩, hamap⟩ := hst
  cases e
  case DocumentStart =>
    cases h
    exact loaderNoBadKey_mk _ _ _ _ hdocs hstack hkeys hamap
  case OtherEvent =>
    cases h
    exact loaderNoBadKey_mk _ _ _ _ hdocs hstack hkeys hamap
  case SequenceStart aid =>
    cases h
    exact loaderNoBadKey_mk _ _ _ _ hdocs
      (by simp [noBadKey, noBadKeyList, hstack]) hkeys hamap
  case MappingStart aid =>
    cases h
    exact loaderNoBadKey_mk _ _ _ _ hdocs
      (by simp [noBadKey, noBadKeyPairs, hstack])
      (by simp [noBadKey, hkeys]) hamap
  case DocumentEnd =>
    rcases sstack with _ | ⟨⟨nn, pa⟩, rest⟩
    · simp only [on_event] at h
      cases h
      exact loaderNoBadKey_mk _ _ _ _
        (by simp [List.all_append, hdocs, noBadKey]) hstack hkeys hamap
    · rcases rest with _ | ⟨q, rest'⟩
      · simp only [on_event] at h
        cases h
        simp only [List.all_cons, Bool.and_eq_true] at hstack
        exact loaderNoBadKey_mk _ _ _ _
          (by simp [List.all_append, hdocs, hstack.1]) rfl hkeys hamap
      · simp only [on_event] at h
        exact Option.noConfusion h
  case SequenceEnd =>
    rcases sstack with _ | ⟨⟨nn, pa⟩, rest⟩
    · simp only [on_event] at h
      exact Option.noConfusion h
    · simp only [List.all_cons, Bool.and_eq_true] at hstack
      obtain ⟨htop, hrest⟩ := hstack
      cases pa <;> simp only [on_event] at h
      · exact insert_preserves_noBadKey _ _ _ _ _ _ _ h htop hdocs hrest
          hkeys hamap
      · exact insert_preserves_noBadKey _ _ _ _ _ _ _ h
          (by simpa [noBadKey] using htop) hdocs hrest hkeys hamap
  case MappingEnd =>
    rcases skeys with _ | ⟨ck, krest⟩
    · simp only [on_event] at h
      exact Option.noConfusion h
    · rcases sstack with _ | ⟨⟨nn, pa⟩, rest⟩
      · simp only [on_event] at h
        exact Option.noConfusion h
      · simp only [List.all_cons, Bool.and_eq_true] at hstack hkeys
        obtain ⟨htop, hrest⟩ := hstack
        cases pa <;> simp only [on_event] at h
        · exact insert_preserves_noBadKey _ _ _ _ _ _ _ h htop hdocs hrest
            hkeys.2 hamap
        · exact insert_preserves_noBadKey _ _ _ _ _ _ _ h
            (by simpa [noBadKey] using htop) hdocs hrest hkeys.2 hamap
  case Scalar v style aid tag =>
    cases aid <;> simp only [on_event] at h
    · exact insert_preserves_noBadKey _ _ _ _ _ _ _ h
        (noBadKey_resolve_scalar v style tag) hdocs hstack hkeys hamap
    · exact insert_preserves_noBadKey _ _ _ _ _ _ _ h
        (by simpa [noBadKey] using noBadKey_resolve_scalar v style tag)
        hdocs hstack hkeys hamap
  case Alias id =>
    simp only [on_event] at h
    have hali : noBadKey (YamlInput.Aliased id (btreeGet samap id)) = true := by
      cases hbg : btreeGet samap id
      · simp [noBadKey]
      · simpa [noBadKey] using noBadKey_btreeGet samap id _ hamap hbg
    exact insert_preserves_noBadKey _ _ _ _ _ _ _ h hali hdocs hstack
      hkeys hamap

/-- Running any event sequence preserves the bad-key-free state invariant. -/
theorem processEvents_preserves_noBadKey (evs : List Event) :
    ∀ st st', processEvents evs st = some st' → loaderNoBadKey st = true →
      loaderNoBadKey st' = true := by
  induction evs with
  | nil =>
    intro st st' h hst
    cases h
    exact hst
  | cons e rest ih =>
    intro st st' h hst
    simp only [processEvents] at h
    cases hoe : on_event e st with
    | none => rw [hoe] at h; exact Option.noConfusion h
    | some st1 =>
      rw [hoe] at h
      exact ih st1 st' h (on_event_preserves_noBadKey e st st1 hoe hst)

/-- C10: the builder uses `BadValue` itself as the "no key pending" sentinel —
when the top of the value stack is an open mapping and the key slot holds
`BadValue` (whether as the sentinel or as a key that resolved to `BadValue`),
an inserted node is stored as the next pending key and the mapping is left
unchanged, so a key resolving to `BadValue` shifts the key/value pairing
(concrete run: `{k1(!!int mismatch): 1, k2: 2}` loads as the single pair
`1 ↦ k2`); consequently no document a load ever produces contains a mapping
with a bare `BadValue` key, at any nesting depth. -/
theorem C10_badvalue_sentinel :
    (∀ st hh pa rest krest (n : YamlInput),
        st.doc_stack = (.Hash hh, pa) :: rest →
        st.key_stack = .BadValue :: krest →
        insert_new_node (n, none) st
          = some { st with key_stack := n :: krest })
      ∧ load_events [.DocumentStart, .MappingStart none,
          .Scalar "k1".data .Plain none (some (.Tag "!!".data "int".data)),
          .Scalar "1".data .Plain none none,
          .Scalar "k2".data .Plain none none,
          .Scalar "2".data .Plain none none,
          .MappingEnd, .DocumentEnd]
        = some [.Hash [(.Integer 1, .String "k2".data)]]
      ∧ (∀ evs docs, load_events evs = some docs →
          docs.all noBadKey = true) := by
  refine ⟨fun st hh pa rest krest n h1 h2 => ?_, by with_unfolding_all rfl,
    fun evs docs h => ?_⟩
  · obtain ⟨sdocs, sstack, skeys, samap⟩ := st
    simp only at h1 h2
    subst h1
    subst h2
    simp [insert_new_node, YamlInput.is_badvalue]
  · simp only [load_events] at h
    cases hp : processEvents evs initial_loader with
    | none => rw [hp] at h; exact Option.noConfusion h
    | some stf =>
      rw [hp] at h
      cases h
      have hinv : loaderNoBadKey stf = true :=
        processEvents_preserves_noBadKey evs initial_loader stf hp
          (by with_unfolding_all rfl)
      simp only [loaderNoBadKey, Bool.and_eq_true] at hinv
      exact hinv.1.1.1

/-- C10 witness: the sentinel mechanism at a concrete state (the node meant
as a value becomes the pending key, the mapping stays empty), and the
bad-key-free conclusion on the concrete shifted-pairing document. -/
theorem C10_witness :
    insert_new_node (.Integer 1, none) ⟨[], [(.Hash [], none)], [.BadValue], []⟩
        = some ⟨[], [(.Hash [], none)], [.Integer 1], []⟩
      ∧ [YamlInput.Hash [(.Integer 1, .String "k2".data)]].all noBadKey
        = true :=
  ⟨C10_badvalue_sentinel.1 ⟨[], [(.Hash [], none)], [.BadValue], []⟩
      [] none [] [] (.Integer 1) rfl rfl,
   C10_badvalue_sentinel.2.2 [.DocumentStart, .MappingStart none,
      .Scalar "k1".data .Plain none (some (.Tag "!!".data "int".data)),
      .Scalar "1".data .Plain none none,
      .Scalar "k2".data .Plain none none,
      .Scalar "2".data .Plain none none,
      .MappingEnd, .DocumentEnd]
      [.Hash [(.Integer 1, .String "k2".data)]]
      C10_badvalue_sentinel.2.1⟩

/-! ## Round-trip support lemmas (claim C4) -/

theorem processEvents_append (a b : List Event) (st : YamlLoader) :
    processEvents (a ++ b) st
      = (processEvents a st).bind (fun st1 => processEvents b st1) := by
  induction a generalizing st with
  | nil => simp [processEvents]
  | cons e rest ih =>
    simp only [List.cons_append, processEvents]
    cases on_event e st
    · simp
    · simp [ih]

theorem processEvents_single (e : Event) (st : YamlLoader) :
    processEvents [e] st = on_event e st := by
  simp only [processEvents]
  cases on_event e st <;> rfl

theorem isDig_digitChar (d : Nat) (h : d < 10) :
    isDig (digitChar d) = true := by
  interval_cases d <;> decide

theorem radixDigitVal_digitChar (d : Nat) (h : d < 10) :
    radixDigitVal (digitChar d) = some d := by
  interval_cases d <;> decide

theorem digitChar_toNat (d : Nat) (h : d < 10) :
    (digitChar d).toNat - 48 = d := by
  interval_cases d <;> decide

theorem natRender_ne_nil (n : Nat) : natRender n ≠ [] := by
  unfold natRender
  split <;> simp

theorem natRender_digits (n : Nat) :
    ∀ c ∈ natRender n, isDig c = true := by
  induction n using Nat.strong_induction_on with
  | _ n ih =>
    unfold natRender
    split
    · next h =>
      intro c hc
      simp only [List.mem_singleton] at hc
      subst hc
      exact isDig_digitChar n h
    · next h =>
      intro c hc
      rw [List.mem_append] at hc
      rcases hc with hc | hc
      · exact ih (n / 10) (Nat.div_lt_self (by omega) (by omega)) c hc
      · simp only [List.mem_singleton] at hc
        subst hc
        exact isDig_digitChar (n % 10) (Nat.mod_lt _ (by omega))

/-- Folding the radix-10 accumulator over an all-digit string tracks the
plain decimal accumulator. -/
theorem radixDigitsVal10_go (l : Str) (hl : ∀ c ∈ l, isDig c = true) :
    ∀ a : Nat,
      (l.foldl
        (fun acc c =>
          match acc, radixDigitVal c with
          | some a, some d => if d < 10 then some (10 * a + d) else none
          | _, _ => none)
        (some a))
      = some (l.foldl (fun acc c => 10 * acc + (c.toNat - 48)) a) := by
  induction l with
  | nil => intro a; rfl
  | cons c rest ih =>
    intro a
    have hc : isDig c = true := hl c (List.mem_cons_self c rest)
    have hcv : radixDigitVal c = some (c.toNat - 48) := by
      simp only [isDig, decide_eq_true_eq] at hc
      simp [radixDigitVal, hc]
    have hlt : c.toNat - 48 < 10 := by
      simp only [isDig, decide_eq_true_eq] at hc
      omega
    simp only [List.foldl_cons, hcv, hlt, if_pos]
    exact ih (fun x hx => hl x (List.mem_cons_of_mem c hx)) _

/-- The decimal accumulator over a rendered natural recovers it (with the
accumulator scaled by the rendered length). -/
theorem decimalVal_natRender (n : Nat) :
    ∀ a : Nat,
      (natRender n).foldl (fun acc c => 10 * acc + (c.toNat - 48)) a
        = a * 10 ^ (natRender n).length + n := by
  induction n using Nat.strong_induction_on with
  | _ n ih =>
    intro a
    unfold natRender
    split
    · next h =>
      simp [digitChar_toNat n h]
      omega
    · next h =>
      rw [List.foldl_append, ih (n / 10) (Nat.div_lt_self (by omega) (by omega))]
      simp only [List.foldl_cons, List.foldl_nil, List.length_append,
        List.length_singleton]
      rw [digitChar_toNat (n % 10) (Nat.mod_lt _ (by omega))]
      have : a * 10 ^ ((natRender (n / 10)).length + 1)
          = (a * 10 ^ (natRender (n / 10)).length) * 10 := by ring
      rw [this]
      omega

theorem radixDigitsVal10_natRender (n : Nat) :
    radixDigitsVal 10 (natRender n) = some n := by
  have := radixDigitsVal10_go (natRender n) (natRender_digits n) 0
  rw [radixDigitsVal, this, decimalVal_natRender n 0]
  simp

theorem from_str_radix10_digits (l : Str) (hne : l ≠ [])
    (hd : ∀ c ∈ l, isDig c = true) (n : Nat)
    (hval : radixDigitsVal 10 l = some n) (hmax : (n : Int) ≤ i64Max) :
    from_str_radix 10 l = some (n : Int) := by
  obtain ⟨c, rest, rfl⟩ := List.exists_cons_of_ne_nil hne
  have hc := hd c (List.mem_cons_self c rest)
  have hplus : c ≠ '+' := by
    intro h
    subst h
    exact absurd hc (by decide)
  have hminus : c ≠ '-' := by
    intro h
    subst h
    exact absurd hc (by decide)
  have h0 : i64Min ≤ (n : Int) := by
    have : i64Min ≤ (0 : Int) := by decide
    exact le_trans this (Int.ofNat_nonneg n)
  unfold from_str_radix
  split
  next neg digits heq =>
    split at heq
    · next r heq2 =>
      rw [List.cons.injEq] at heq2
      exact absurd heq2.1 hplus
    · next r heq2 =>
      rw [List.cons.injEq] at heq2
      exact absurd heq2.1 hminus
    · rw [Prod.mk.injEq] at heq
      obtain ⟨hneg, hdig⟩ := heq
      subst hneg
      subst hdig
      simp only [List.isEmpty_cons, Bool.false_eq_true, if_false, hval]
      rw [if_pos ⟨h0, hmax⟩]

theorem natRender_isEmpty (n : Nat) : (natRender n).isEmpty = false := by
  obtain ⟨c, rest, hcr⟩ := List.exists_cons_of_ne_nil (natRender_ne_nil n)
  rw [hcr]
  rfl

theorem parse_i64_intRender (i : Int) (hmin : i64Min ≤ i) (hmax : i ≤ i64Max) :
    parse_i64 (intRender i) = some i := by
  unfold intRender parse_i64
  split
  · next hneg =>
    have hm : ((-i).toNat : Int) = -i := Int.toNat_of_nonneg (by omega)
    unfold from_str_radix
    split
    next neg digits heq =>
      split at heq
      · next r heq2 =>
        rw [List.cons.injEq] at heq2
        exact absurd heq2.1 (by decide)
      · next r heq2 =>
        rw [List.cons.injEq] at heq2
        obtain ⟨-, hr⟩ := heq2
        subst hr
        rw [Prod.mk.injEq] at heq
        obtain ⟨hneg', hdig⟩ := heq
        subst hneg'
        subst hdig
        simp [natRender_isEmpty, radixDigitsVal10_natRender, hm, hmin, hmax]
      · rename_i hplus2 hminus2
        exact absurd rfl (hminus2 (natRender (-i).toNat))
  · next hpos =>
    have hm : (i.toNat : Int) = i := Int.toNat_of_nonneg (by omega)
    rw [from_str_radix10_digits (natRender i.toNat) (natRender_ne_nil _)
      (natRender_digits _) i.toNat (radixDigitsVal10_natRender _)
      (by rw [hm]; exact hmax)]
    rw [hm]

theorem strip0x_digits (l : Str) (hd : ∀ c ∈ l, isDig c = true) :
    YamlInput.strip0x l = none := by
  unfold YamlInput.strip0x
  split
  · next =>
    have : isDig 'x' = true := hd 'x' (by simp)
    exact absurd this (by decide)
  · rfl

theorem strip0o_digits (l : Str) (hd : ∀ c ∈ l, isDig c = true) :
    YamlInput.strip0o l = none := by
  unfold YamlInput.strip0o
  split
  · next =>
    have : isDig 'o' = true := hd 'o' (by simp)
    exact absurd this (by decide)
  · rfl

theorem stripPlus_digits (l : Str) (hd : ∀ c ∈ l, isDig c = true) :
    YamlInput.stripPlus l = none := by
  unfold YamlInput.stripPlus
  split
  · next =>
    have : isDig '+' = true := hd '+' (by simp)
    exact absurd this (by decide)
  · rfl

theorem strip0x_head (c : Char) (l : Str) (h : c ≠ '0') :
    YamlInput.strip0x (c :: l) = none := by
  unfold YamlInput.strip0x
  split
  · next r heq =>
    rw [List.cons.injEq] at heq
    exact absurd heq.1 h
  · rfl

theorem strip0o_head (c : Char) (l : Str) (h : c ≠ '0') :
    YamlInput.strip0o (c :: l) = none := by
  unfold YamlInput.strip0o
  split
  · next r heq =>
    rw [List.cons.injEq] at heq
    exact absurd heq.1 h
  · rfl

theorem stripPlus_head (c : Char) (l : Str) (h : c ≠ '+') :
    YamlInput.stripPlus (c :: l) = none := by
  unfold YamlInput.stripPlus
  split
  · next r heq =>
    rw [List.cons.injEq] at heq
    exact absurd heq.1 h
  · rfl

theorem digits_ne (l : Str) (hd : ∀ c ∈ l, isDig c = true) (w : Str)
    (c : Char) (hc : c ∈ w) (hcd : isDig c = false) : l ≠ w := by
  intro h
  subst h
  rw [hd c hc] at hcd
  cases hcd

theorem head_ne (c : Char) (l : Str) (d : Char) (wt : Str) (hcd : c ≠ d) :
    c :: l ≠ d :: wt := by
  intro h
  rw [List.cons.injEq] at h
  exact absurd h.1 hcd

/-- Routing through `from_str` when every earlier rule fails and the base-10
parse succeeds. -/
theorem from_str_parse10 (l : Str)
    (h0x : YamlInput.strip0x l = none)
    (h0o : YamlInput.strip0o l = none)
    (hpl : YamlInput.stripPlus l = none)
    (h1 : l ≠ "~".data) (h2 : l ≠ "null".data)
    (h3 : l ≠ "true".data) (h4 : l ≠ "false".data)
    (i : Int) (hp : parse_i64 l = some i) :
    YamlInput.from_str l = .Integer i := by
  simp [YamlInput.from_str, h0x, h0o, hpl, h1, h2, h3, h4, hp]

/-- `from_str` recovers an `i64`-range integer from its decimal rendering. -/
theorem from_str_intRender (i : Int) (hmin : i64Min ≤ i) (hmax : i ≤ i64Max) :
    YamlInput.from_str (intRender i) = .Integer i := by
  have hp := parse_i64_intRender i hmin hmax
  by_cases hneg : i < 0
  · have hir : intRender i = '-' :: natRender (-i).toNat := by
      unfold intRender
      rw [if_pos hneg]
    rw [hir] at hp ⊢
    exact from_str_parse10 _
      (strip0x_head _ _ (by decide)) (strip0o_head _ _ (by decide))
      (stripPlus_head _ _ (by decide))
      (head_ne _ _ '~' [] (by decide)) (head_ne _ _ 'n' "ull".data (by decide))
      (head_ne _ _ 't' "rue".data (by decide))
      (head_ne _ _ 'f' "alse".data (by decide)) i hp
  · have hir : intRender i = natRender i.toNat := by
      unfold intRender
      rw [if_neg hneg]
    rw [hir] at hp ⊢
    have hd := natRender_digits i.toNat
    exact from_str_parse10 _
      (strip0x_digits _ hd) (strip0o_digits _ hd) (stripPlus_digits _ hd)
      (digits_ne _ hd _ '~' (by decide) (by decide))
      (digits_ne _ hd _ 'n' (by decide) (by decide))
      (digits_ne _ hd _ 't' (by decide) (by decide))
      (digits_ne _ hd _ 'f' (by decide) (by decide)) i hp

/-- The string fallback of `from_str` stores the input text verbatim. -/
theorem from_str_string_verbatim (v w : Str)
    (h : YamlInput.from_str v = .String w) : w = v := by
  unfold YamlInput.from_str at h
  repeat' split at h
  all_goals first
    | exact YamlInput.noConfusion h
    | (injection h with h; exact h.symm)

theorem rtSafe_not_badvalue (t : YamlInput) (h : rtSafe t = true) :
    t.is_badvalue = false := by
  cases t <;> first
    | rfl
    | (rw [show rtSafe .BadValue = false from rfl] at h; cases h)

/-- `hashInsert` on a fresh key appends the pair at the back. -/
theorem hashInsert_fresh (h : HashInput) (k v : YamlInput)
    (hf : keyFreshIn h k = true) : hashInsert h k v = h ++ [(k, v)] := by
  induction h with
  | nil => rfl
  | cons p rest ih =>
    obtain ⟨k', v'⟩ := p
    simp only [keyFreshIn, List.all_cons, Bool.and_eq_true,
      Bool.not_eq_true'] at hf
    simp only [hashInsert, hf.1, Bool.false_eq_true, if_false,
      List.cons_append, List.cons.injEq, true_and]
    exact ih (by simpa [keyFreshIn] using hf.2)

theorem keyFreshIn_append (a b : HashInput) (k : YamlInput) :
    keyFreshIn (a ++ b) k = (keyFreshIn a k && keyFreshIn b k) := by
  simp [keyFreshIn, List.all_append]

/-- Under the round-trip side conditions, `Hash` conversion is the
element-wise pair conversion. -/
theorem toOutput_hash_distinct (l : HashInput)
    (hd : keysDistinctOut (toOutputPairs l) = true) :
    toOutput (.Hash l) = .Hash (toOutputPairs l) := by
  show YamlOutput.Hash (collectPairs (toOutputPairs l)) = _
  rw [collectPairs_distinct _ hd]

theorem resolve_scalar_plain_untagged (v : Str) :
    resolve_scalar v .Plain none = YamlInput.from_str v := rfl

theorem resolve_scalar_quoted (v : Str) :
    resolve_scalar v .SingleQuoted none = .String v := rfl

/-! The round-trip induction: the events emitted for a safe tree, fed back
through the builder, act exactly as inserting the tree itself. -/

mutual

theorem rt_node : ∀ (t : YamlInput), rtSafe t = true → ∀ (st : YamlLoader),
    processEvents (emitEvents (toOutput t)) st = insert_new_node (t, none) st
  | .Real s, ht, st => by
    have hfs : YamlInput.from_str s = .Real s := by
      simp only [rtSafe] at ht
      split at ht
      · next s' heq =>
        rw [decide_eq_true_eq] at ht
        rw [heq, ht]
      · cases ht
    show processEvents [.Scalar s .Plain none none] st = _
    rw [processEvents_single]
    show insert_new_node (resolve_scalar s .Plain none, none) st = _
    rw [resolve_scalar_plain_untagged, hfs]
  | .Integer i, ht, st => by
    simp only [rtSafe, decide_eq_true_eq] at ht
    show processEvents [.Scalar (intRender i) .Plain none none] st = _
    rw [processEvents_single]
    show insert_new_node (resolve_scalar (intRender i) .Plain none, none) st = _
    rw [resolve_scalar_plain_untagged, from_str_intRender i ht.1 ht.2]
  | .String s, _, st => by
    have he : emitEvents (toOutput (.String s))
        = (match YamlInput.from_str s with
          | .String _ => [Event.Scalar s .Plain none none]
          | _ => [Event.Scalar s .SingleQuoted none none]) := by
      simp [toOutput, emitEvents]
    rw [he]
    split
    · next s2 heq =>
      rw [processEvents_single]
      show insert_new_node (resolve_scalar s .Plain none, none) st = _
      rw [resolve_scalar_plain_untagged, heq,
        from_str_string_verbatim s s2 heq]
    · rw [processEvents_single]
      show insert_new_node (resolve_scalar s .SingleQuoted none, none) st = _
      rw [resolve_scalar_quoted]
  | .Boolean true, _, st => by
    show processEvents [.Scalar "true".data .Plain none none] st = _
    rw [processEvents_single]
    rfl
  | .Boolean false, _, st => by
    show processEvents [.Scalar "false".data .Plain none none] st = _
    rw [processEvents_single]
    rfl
  | .Null, _, st => by
    show processEvents [.Scalar "~".data .Plain none none] st = _
    rw [processEvents_single]
    rfl
  | .BadValue, ht, st => by simp [rtSafe] at ht
  | .Anchored n c, ht, st => by simp [rtSafe] at ht
  | .Aliased n c, ht, st => by simp [rtSafe] at ht
  | .Array v, ht, st => by
    simp only [rtSafe] at ht
    have he : emitEvents (toOutput (.Array v))
        = Event.SequenceStart none
            :: (emitList (toOutputList v) ++ [Event.SequenceEnd]) := by
      simp [toOutput, emitEvents]
    rw [he]
    rw [show processEvents
          (Event.SequenceStart none
            :: (emitList (toOutputList v) ++ [Event.SequenceEnd])) st
        = processEvents (emitList (toOutputList v) ++ [Event.SequenceEnd])
            ⟨st.docs, (.Array [], none) :: st.doc_stack, st.key_stack,
              st.anchor_map⟩ from rfl]
    rw [processEvents_append,
      rt_list v ht st.docs [] none st.doc_stack st.key_stack st.anchor_map]
    rw [Option.some_bind, processEvents_single]
    show insert_new_node (.Array ([] ++ v), none)
        (⟨st.docs, st.doc_stack, st.key_stack, st.anchor_map⟩ : YamlLoader) = _
    rw [List.nil_append]
  | .Hash hl, ht, st => by
    simp only [rtSafe, Bool.and_eq_true] at ht
    obtain ⟨⟨hdIn, hdOut⟩, hsafe⟩ := ht
    rw [toOutput_hash_distinct hl hdOut]
    have he : emitEvents (.Hash (toOutputPairs hl))
        = Event.MappingStart none
            :: (emitPairs (toOutputPairs hl) ++ [Event.MappingEnd]) := by
      simp [emitEvents]
    rw [he]
    rw [show processEvents
          (Event.MappingStart none
            :: (emitPairs (toOutputPairs hl) ++ [Event.MappingEnd])) st
        = processEvents (emitPairs (toOutputPairs hl) ++ [Event.MappingEnd])
            ⟨st.docs, (.Hash [], none) :: st.doc_stack,
              .BadValue :: st.key_stack, st.anchor_map⟩ from rfl]
    rw [processEvents_append,
      rt_pairs hl hsafe hdIn st.docs [] (by simp [keyFreshIn]) none
        st.doc_stack st.key_stack st.anchor_map]
    rw [Option.some_bind, processEvents_single]
    show insert_new_node (.Hash ([] ++ hl), none)
        (⟨st.docs, st.doc_stack, st.key_stack, st.anchor_map⟩ : YamlLoader) = _
    rw [List.nil_append]
termination_by t _ _ => sizeOf t

theorem rt_list : ∀ (l : List YamlInput), rtSafeList l = true →
    ∀ (d : List YamlInput) (acc : List YamlInput) (pa : Option Str)
      (rest : List (YamlInput × Option Str)) (ks : List YamlInput)
      (am : List (Str × YamlInput)),
    processEvents (emitList (toOutputList l))
        ⟨d, (.Array acc, pa) :: rest, ks, am⟩
      = some ⟨d, (.Array (acc ++ l), pa) :: rest, ks, am⟩
  | [], _, d, acc, pa, rest, ks, am => by
    simp [toOutputList, emitList, processEvents]
  | t :: ts, hl, d, acc, pa, rest, ks, am => by
    simp only [rtSafeList, Bool.and_eq_true] at hl
    have he : emitList (toOutputList (t :: ts))
        = emitEvents (toOutput t) ++ emitList (toOutputList ts) := by
      simp [toOutputList, emitList]
    rw [he, processEvents_append, rt_node t hl.1]
    rw [show insert_new_node (t, none)
          (⟨d, (.Array acc, pa) :: rest, ks, am⟩ : YamlLoader)
        = some ⟨d, (.Array (acc ++ [t]), pa) :: rest, ks, am⟩ from rfl]
    rw [Option.some_bind]
    rw [rt_list ts hl.2 d (acc ++ [t]) pa rest ks am]
    simp
termination_by l _ _ _ _ _ _ _ => sizeOf l

theorem rt_pairs : ∀ (lp : HashInput), rtSafePairs lp = true →
    keysDistinctIn lp = true →
    ∀ (d : List YamlInput) (acc : HashInput),
    (lp.all fun p => keyFreshIn acc p.1) = true →
    ∀ (pa : Option Str) (rest : List (YamlInput × Option Str))
      (krest : List YamlInput) (am : List (Str × YamlInput)),
    processEvents (emitPairs (toOutputPairs lp))
        ⟨d, (.Hash acc, pa) :: rest, .BadValue :: krest, am⟩
      = some ⟨d, (.Hash (acc ++ lp), pa) :: rest, .BadValue :: krest, am⟩
  | [], _, _, d, acc, _, pa, rest, krest, am => by
    simp [toOutputPairs, emitPairs, processEvents]
  | (k, v) :: ps, hs, hd, d, acc, hf, pa, rest, krest, am => by
    simp only [rtSafePairs, Bool.and_eq_true] at hs
    obtain ⟨⟨hk, hv⟩, hps⟩ := hs
    simp only [keysDistinctIn, Bool.and_eq_true] at hd
    obtain ⟨hdk, hdps⟩ := hd
    simp only [List.all_cons, Bool.and_eq_true] at hf
    obtain ⟨hfk, hfps⟩ := hf
    have he : emitPairs (toOutputPairs ((k, v) :: ps))
        = emitEvents (toOutput k)
            ++ (emitEvents (toOutput v) ++ emitPairs (toOutputPairs ps)) := by
      simp [toOutputPairs, emitPairs]
    rw [he, processEvents_append, rt_node k hk]
    rw [show insert_new_node (k, none)
          (⟨d, (.Hash acc, pa) :: rest, .BadValue :: krest, am⟩ : YamlLoader)
        = some ⟨d, (.Hash acc, pa) :: rest, k :: krest, am⟩ from rfl]
    rw [Option.some_bind, processEvents_append, rt_node v hv]
    have hkb : YamlInput.is_badvalue k = false := rtSafe_not_badvalue k hk
    have hins : insert_new_node (v, none)
        (⟨d, (.Hash acc, pa) :: rest, k :: krest, am⟩ : YamlLoader)
        = some ⟨d, (.Hash (hashInsert acc k v), pa) :: rest,
            .BadValue :: krest, am⟩ := by
      simp [insert_new_node, hkb]
    rw [hins, Option.some_bind, hashInsert_fresh acc k v hfk]
    have hf2 : (ps.all fun p => keyFreshIn (acc ++ [(k, v)]) p.1) = true := by
      rw [List.all_eq_true] at hfps ⊢
      intro q hq
      rw [keyFreshIn_append, Bool.and_eq_true]
      exact ⟨hfps q hq,
        by simpa [keyFreshIn] using (List.all_eq_true.mp hdk q hq)⟩
    rw [rt_pairs ps hps hdps d (acc ++ [(k, v)]) hf2 pa rest krest am]
    simp
termination_by lp _ _ _ _ _ _ _ _ _ => sizeOf lp

end

/-- C4, counterexample: the round trip is not a reproduction for every tree —
`Real "2"` (reachable in the source via `!!float 2`) serializes as the plain
text `2`, which scalar resolution re-classifies as `Integer 2`, so parsing
the serialized document yields a structurally different tree. -/
theorem C4_counterexample :
    load_events (docEvents (toOutput (.Real "2".data))) = some [.Integer 2]
      ∧ YamlInput.Integer 2 ≠ .Real "2".data
      ∧ load_events (docEvents (toOutput (.Array [.Anchored "A".data .Null,
          .Aliased "A".data (some .Null)])))
        = some [.Array [.Anchored "A".data .Null,
            .Aliased "A".data (some (.Anchored "A".data .Null))]]
      ∧ YamlInput.Array [.Anchored "A".data .Null,
            .Aliased "A".data (some (.Anchored "A".data .Null))]
        ≠ .Array [.Anchored "A".data .Null, .Aliased "A".data (some .Null)] := by
  refine ⟨by with_unfolding_all rfl, fun h => YamlInput.noConfusion h,
    by with_unfolding_all rfl, fun h => ?_⟩
  injection h with h
  simp at h

/-- C4, amended: for every tree with no anchor, alias or `BadValue` nodes,
whose integers are in the `i64` range, whose `Real` leaves' text re-resolves
as a float, and whose hashes have pairwise-distinct keys (also after
conversion), serializing the converted tree and feeding the resulting event
stream back through the loader yields exactly one document equal to the
original tree. The serializer-plus-parser composite is the spec-modelled
event-level `docEvents`/`emitEvents`. -/
theorem C4_round_trip (t : YamlInput) (ht : rtSafe t = true) :
    load_events (docEvents (toOutput t)) = some [t] := by
  unfold load_events docEvents
  rw [show Event.DocumentStart :: emitEvents (toOutput t) ++ [Event.DocumentEnd]
      = [Event.DocumentStart] ++ (emitEvents (toOutput t) ++ [Event.DocumentEnd])
      from rfl]
  rw [processEvents_append, processEvents_single]
  rw [show on_event Event.DocumentStart initial_loader = some initial_loader
      from rfl]
  rw [Option.some_bind, processEvents_append, rt_node t ht initial_loader]
  rw [show insert_new_node (t, none) initial_loader
      = some ⟨[], [(t, none)], [], []⟩ from rfl]
  rw [Option.some_bind, processEvents_single]
  rfl

/-- C4 witness: the amended round trip at a concrete document — a mapping
with a string key, an integer, an array value with a float and a null, and a
boolean — reproduces the tree exactly. -/
theorem C4_witness :
    load_events (docEvents (toOutput (.Hash
        [(.String "a".data, .Integer 42),
         (.String "b".data, .Array [.Real "1.5".data, .Null]),
         (.Integer 7, .Boolean true)])))
      = some [.Hash
          [(.String "a".data, .Integer 42),
           (.String "b".data, .Array [.Real "1.5".data, .Null]),
           (.Integer 7, .Boolean true)]] :=
  C4_round_trip
    (.Hash [(.String "a".data, .Integer 42),
            (.String "b".data, .Array [.Real "1.5".data, .Null]),
            (.Integer 7, .Boolean true)])
    (by with_unfolding_all rfl)
